import Mathlib

/-!
# Cache-Simulator: a set-associative LFU cache in front of a flat byte memory

Shallow embedding of `src/cache.c` and verification of its specification.

Modelling conventions.

* `uchar` and `long int` values are natural numbers.  The only arithmetic the
  program does on a narrow type is `frequency++` on a `uchar`, which is
  modelled with an explicit `% 256`.
* Addresses are natural numbers: the driver stops at the first negative
  input, and `>>` on a negative `long int` is implementation-defined.
* `1 << s` (l.35, l.103, l.152) is an `int` expression.  It is evaluated in 32
  bits (`shl_int`, `int32`): it is `2 ^ s` for `s ≤ 30`, the only case C
  defines, and beyond that what the usual build gives, the count taken modulo
  32 and the result wrapped, so that `s = 32` gives one set and the mask 0.
* The block-size expressions `1 << b` (l.36, l.117, l.143) are taken as
  `2 ^ b`, their value for `b ≤ 30`, and the shifts of the `long int` address
  as the mathematical ones.
* The backing store `uchar *start` is a `List Nat`; the table behind
  `cache_line_t **cache` is a list of sets, each a list of lines.
* An access outside a list is undefined behaviour in C; the embedding
  returns `none` there.  `read_byte` and `write_byte` are transformers of the
  whole state (table and store).
-/

namespace CacheSim

/-! ## The program -/

/-- The C struct `cache_line_t` (cache.c l.9-14). -/
structure cache_line_t where
  valid : Nat
  frequency : Nat
  tag : Nat
  block : List Nat
deriving DecidableEq, Repr

/-- Value of the pointer field `cache_line_t **cache`: `NULL`, a pointer to
storage that has been released, or a pointer to a live table. -/
inductive table_ptr where
  | null
  | freed
  | table (sets : List (List cache_line_t))
deriving DecidableEq, Repr

/-- Dereferencing the table pointer; only a live table can be read. -/
def table_ptr.deref : table_ptr → Option (List (List cache_line_t))
  | .table sets => some sets
  | _ => none

/-- The C struct `cache_t` (cache.c l.17-23). -/
structure cache_t where
  s : Nat
  t : Nat
  b : Nat
  E : Nat
  cache : table_ptr
deriving DecidableEq, Repr

/-- Inner loop of `initialize_cache` (l.53-75): `n` lines remain to be set up,
`k` is the number of allocation calls made so far and `ok k` tells whether
call number `k` succeeds.  `none` when a `calloc` fails. -/
def init_lines (ok : Nat → Bool) (B : Nat) : Nat → Nat → Option (List cache_line_t)
  | 0, _ => some []
  | n + 1, k =>
    if ok k then
      match init_lines ok B n (k + 1) with
      | some rest =>
        some ({ valid := 0, frequency := 0, tag := 0, block := List.replicate B 0 } :: rest)
      | none => none
    else none

/-- Outer loop of `initialize_cache` (l.43-76): `n` sets remain, `k` counts the
allocation calls made so far.  Each set costs one `malloc` and `E` `calloc`s. -/
def init_sets (ok : Nat → Bool) (B E : Nat) : Nat → Nat → Option (List (List cache_line_t))
  | 0, _ => some []
  | n + 1, k =>
    if ok k then
      match init_lines ok B E (k + 1) with
      | some row =>
        match init_sets ok B E n (k + 1 + E) with
        | some rest => some (row :: rest)
        | none => none
      | none => none
    else none

/-- A value stored in a 32-bit `int`: two's-complement wrap-around. -/
def int32 (x : Int) : Int := (x + 2147483648) % 4294967296 - 2147483648

/-- The `int` expression `1 << n` (l.35, l.103, l.152), evaluated in 32 bits
with the shift count taken modulo 32: `2 ^ n` for `n ≤ 30`, `-2 ^ 31` for
`n = 31`, `1` again for `n = 32`. -/
def shl_int (n : Nat) : Int := int32 (2 ^ (n % 32))

/-- `initialize_cache` (l.26-78).  `ok k` tells whether allocation call number
`k` (counted from 0 in program order) succeeds.  On a failure the struct is
returned with `s = 0` and a pointer that is `NULL` (first `malloc`) or
released (later stages).  `S` is the number of times the loop `i < S` of l.43
runs for the `int S = 1 << s`: no time when `S` is negative.  `B` is `2 ^ b`,
the value of `int B = 1 << b` for `b ≤ 30`. -/
def initialize_cache (ok : Nat → Bool) (s t b E : Nat) : cache_t :=
  let S := (shl_int s).toNat
  let B := 1 <<< b
  if ok 0 then
    match init_sets ok B E S 1 with
    | some sets => { s := s, t := t, b := b, E := E, cache := .table sets }
    | none => { s := 0, t := t, b := b, E := E, cache := .freed }
  else { s := 0, t := t, b := b, E := E, cache := .null }

/-- Loop of `find_least_frequent` (l.85-90): `n` iterations remain, `i` is the
loop counter, `lfuIndex` and `minFreq` the two locals. -/
def lfu_loop (set : List cache_line_t) : Nat → Nat → Nat → Nat → Option Nat
  | 0, _, lfuIndex, _ => some lfuIndex
  | n + 1, i, lfuIndex, minFreq =>
    match set[i]? with
    | some l =>
      if l.frequency < minFreq then lfu_loop set n (i + 1) i l.frequency
      else lfu_loop set n (i + 1) lfuIndex minFreq
    | none => none

/-- `find_least_frequent` (l.81-92). -/
def find_least_frequent (set : List cache_line_t) (E : Nat) : Option Nat :=
  match set[0]? with
  | some l0 => lfu_loop set E 0 0 l0.frequency
  | none => none

/-- Set index of an address: `(off >> cache.b) & ((1 << cache.s) - 1)`
(l.103, l.152).  The mask is the `int` `(1 << cache.s) - 1`, which is never
negative, widened to `long int`. -/
def set_of (s b off : Nat) : Nat := (off >>> b) &&& (int32 (shl_int s - 1)).toNat

/-- Tag of an address: `off >> (cache.s + cache.b)` (l.109, l.153). -/
def tag_of (s b off : Nat) : Nat := off >>> (s + b)

/-- Block offset of an address: `off & ((1 << cache.b) - 1)` (l.117, l.154).
The mask is taken as `2 ^ b - 1`, the value of the `int` expression for
`b ≤ 30`. -/
def block_of (b off : Nat) : Nat := off &&& ((1 <<< b) - 1)

/-- The hit scan `for (int i = 0; i < cache.E; ++i)` (l.120-125, l.157-166):
`n` iterations remain, `i` is the loop counter.  `some (some i)` when line `i`
is valid and carries the tag, `some none` when the loop falls through. -/
def hit_loop (set : List cache_line_t) (tag : Nat) : Nat → Nat → Option (Option Nat)
  | 0, _ => some none
  | n + 1, i =>
    match set[i]? with
    | some l =>
      if l.valid ≠ 0 ∧ l.tag = tag then some (some i) else hit_loop set tag n (i + 1)
    | none => none

/-- The scan for an empty line (l.128-131, l.169-172):
`while (lineToInsertIndex < cache.E && set[lineToInsertIndex].valid)`; `n` is
`cache.E - lineToInsertIndex`. -/
def empty_loop (set : List cache_line_t) : Nat → Nat → Option Nat
  | 0, i => some i
  | n + 1, i =>
    match set[i]? with
    | some l => if l.valid ≠ 0 then empty_loop set n (i + 1) else some i
    | none => none

/-- Choice of the destination line on a miss (l.128-134, l.169-175). -/
def line_to_insert (set : List cache_line_t) (E : Nat) : Option Nat :=
  match empty_loop set E 0 with
  | some i => if i = E then find_least_frequent set E else some i
  | none => none

/-- The block copy `line->block[i] = start[off - block + i]` for
`i < (1 << cache.b)` (l.143-145, l.184-186): `n` iterations remain. -/
def copy_loop (start : List Nat) (base : Nat) : Nat → Nat → List Nat → Option (List Nat)
  | 0, _, blk => some blk
  | n + 1, i, blk =>
    match start[base + i]? with
    | some v => if i < blk.length then copy_loop start base n (i + 1) (blk.set i v) else none
    | none => none

/-- `read_byte` (l.94-149).  Returns the table, the store and the byte. -/
def read_byte (cache : cache_t) (start : List Nat) (off : Nat) :
    Option (cache_t × List Nat × Nat) :=
  let set := set_of cache.s cache.b off
  let tag := tag_of cache.s cache.b off
  let block := block_of cache.b off
  match cache.cache.deref with
  | none => none
  | some sets =>
  match sets[set]? with
  | none => none
  | some row =>
  match hit_loop row tag cache.E 0 with
  | none => none
  | some (some i) =>
    match row[i]? with
    | none => none
    | some l =>
      match l.block[block]? with
      | none => none
      | some v =>
        some ({ cache with cache := .table (sets.set set
                  (row.set i { l with frequency := (l.frequency + 1) % 256 })) }, start, v)
  | some none =>
    match line_to_insert row cache.E with
    | none => none
    | some idx =>
      match row[idx]? with
      | none => none
      | some line =>
        match copy_loop start (off - block) (1 <<< cache.b) 0 line.block with
        | none => none
        | some blk =>
          match blk[block]? with
          | none => none
          | some v =>
            some ({ cache with cache := .table (sets.set set
                      (row.set idx { valid := 1, frequency := 1, tag := tag, block := blk })) },
                  start, v)

/-- `write_byte` (l.151-187).  Returns the table and the store. -/
def write_byte (cache : cache_t) (start : List Nat) (off : Nat) (new_byte : Nat) :
    Option (cache_t × List Nat) :=
  let set := set_of cache.s cache.b off
  let tag := tag_of cache.s cache.b off
  let block := block_of cache.b off
  match cache.cache.deref with
  | none => none
  | some sets =>
  match sets[set]? with
  | none => none
  | some row =>
  match hit_loop row tag cache.E 0 with
  | none => none
  | some (some i) =>
    match row[i]? with
    | none => none
    | some l =>
      if block < l.block.length ∧ off < start.length then
        some ({ cache with cache := .table (sets.set set
                  (row.set i { l with block := l.block.set block new_byte,
                                      frequency := (l.frequency + 1) % 256 })) },
              start.set off new_byte)
      else none
  | some none =>
    match line_to_insert row cache.E with
    | none => none
    | some idx =>
      match row[idx]? with
      | none => none
      | some line =>
        if off < start.length then
          match copy_loop (start.set off new_byte) (off - block) (1 <<< cache.b) 0 line.block with
          | none => none
          | some blk =>
            some ({ cache with cache := .table (sets.set set
                      (row.set idx { valid := 1, frequency := 1, tag := tag, block := blk })) },
                  start.set off new_byte)
        else none

/-! ## Vocabulary of the specification -/

/-- The hit test of l.121 and l.158: `set[i].valid && set[i].tag == tag`. -/
def is_hit (tag : Nat) (l : cache_line_t) : Prop := l.valid ≠ 0 ∧ l.tag = tag

instance (tag : Nat) (l : cache_line_t) : Decidable (is_hit tag l) :=
  inferInstanceAs (Decidable (l.valid ≠ 0 ∧ l.tag = tag))

/-- Set `i` of the table, when the table is live and has it. -/
def set_at (c : cache_t) (i : Nat) : Option (List cache_line_t) :=
  match c.cache.deref with
  | some sets => sets[i]?
  | none => none

/-- Line `j` of set `i` of the table, when the table is live and has it. -/
def line_at (c : cache_t) (i j : Nat) : Option cache_line_t :=
  match set_at c i with
  | some row => row[j]?
  | none => none

/-- The cache with line `j` of set `i` replaced by `l`. -/
def put_line (c : cache_t) (i j : Nat) (l : cache_line_t) : cache_t :=
  match c.cache.deref, set_at c i with
  | some sets, some row => { c with cache := .table (sets.set i (row.set j l)) }
  | _, _ => c

/-- A line after the `frequency++` of a hit (l.122, l.161): the field is a
`uchar`, so the increment is modulo 256. -/
def bump (l : cache_line_t) : cache_line_t :=
  { l with frequency := (l.frequency + 1) % 256 }

/-- The `2 ^ b` bytes of the store in the block of `off`. -/
def fetch (b : Nat) (start : List Nat) (off : Nat) : List Nat :=
  (start.drop (off - block_of b off)).take (2 ^ b)

/-- A freshly filled line (l.138-145, l.178-186). -/
def fill_line (tag : Nat) (blk : List Nat) : cache_line_t :=
  { valid := 1, frequency := 1, tag := tag, block := blk }

/-- Shape of a table for the geometry `(s, b, E)`: `2 ^ s` sets of `E` lines
with blocks of `2 ^ b` bytes. -/
def table_shape (s b E : Nat) (sets : List (List cache_line_t)) : Prop :=
  sets.length = 2 ^ s ∧ ∀ row ∈ sets, row.length = E ∧ ∀ l ∈ row, l.block.length = 2 ^ b

instance (s b E : Nat) (sets : List (List cache_line_t)) : Decidable (table_shape s b E sets) :=
  inferInstanceAs (Decidable (sets.length = 2 ^ s ∧
    ∀ row ∈ sets, row.length = E ∧ ∀ l ∈ row, l.block.length = 2 ^ b))

/-- Well-formed cache state: at least one line per set and a live table of the
shape the recorded geometry announces. -/
def well_formed (c : cache_t) : Prop :=
  1 ≤ c.E ∧
    match c.cache.deref with
    | some sets => table_shape c.s c.b c.E sets
    | none => False

instance (c : cache_t) : Decidable (well_formed c) :=
  match h : c.cache.deref with
  | some sets =>
    decidable_of_iff (1 ≤ c.E ∧ table_shape c.s c.b c.E sets) (by simp [well_formed, h])
  | none => isFalse (by simp [well_formed, h])

/-- The whole block of `off` lies inside the store. -/
def block_in_store (b : Nat) (start : List Nat) (off : Nat) : Prop :=
  off - block_of b off + 2 ^ b ≤ start.length

instance (b : Nat) (start : List Nat) (off : Nat) : Decidable (block_in_store b start off) :=
  inferInstanceAs (Decidable (off - block_of b off + 2 ^ b ≤ start.length))

/-- Line `j` is the first line of `set` that hits on `tag`. -/
def first_hit (set : List cache_line_t) (tag j : Nat) : Prop :=
  (∃ l ∈ set[j]?, is_hit tag l) ∧ ∀ k < j, ∀ l ∈ set[k]?, ¬ is_hit tag l

instance (set : List cache_line_t) (tag j : Nat) : Decidable (first_hit set tag j) :=
  inferInstanceAs (Decidable ((∃ l ∈ set[j]?, is_hit tag l) ∧
    ∀ k < j, ∀ l ∈ set[k]?, ¬ is_hit tag l))

/-- No line of `set` hits on `tag`. -/
def no_hit (set : List cache_line_t) (tag : Nat) : Prop :=
  ∀ l ∈ set, ¬ is_hit tag l

instance (set : List cache_line_t) (tag : Nat) : Decidable (no_hit set tag) :=
  inferInstanceAs (Decidable (∀ l ∈ set, ¬ is_hit tag l))

/-- Line `j` is the first invalid line of `set`. -/
def first_empty (set : List cache_line_t) (j : Nat) : Prop :=
  (∃ l ∈ set[j]?, l.valid = 0) ∧ ∀ k < j, ∀ l ∈ set[k]?, l.valid ≠ 0

instance (set : List cache_line_t) (j : Nat) : Decidable (first_empty set j) :=
  inferInstanceAs (Decidable ((∃ l ∈ set[j]?, l.valid = 0) ∧
    ∀ k < j, ∀ l ∈ set[k]?, l.valid ≠ 0))

/-- Line `j` has the least frequency of `set`, and is the first such line. -/
def first_least_frequent (set : List cache_line_t) (j : Nat) : Prop :=
  ∃ l ∈ set[j]?, (∀ l' ∈ set, l.frequency ≤ l'.frequency) ∧
    ∀ k < j, ∀ l' ∈ set[k]?, l.frequency < l'.frequency

instance (set : List cache_line_t) (j : Nat) : Decidable (first_least_frequent set j) :=
  inferInstanceAs (Decidable (∃ l ∈ set[j]?, (∀ l' ∈ set, l.frequency ≤ l'.frequency) ∧
    ∀ k < j, ∀ l' ∈ set[k]?, l.frequency < l'.frequency))

/-- One call of the driver. -/
inductive call where
  | read (off : Nat)
  | write (off : Nat) (new_byte : Nat)
deriving DecidableEq, Repr

/-- Effect of one call on the state (table and store). -/
def step (c : cache_t) (start : List Nat) : call → Option (cache_t × List Nat)
  | .read off =>
    match read_byte c start off with
    | some (c', start', _) => some (c', start')
    | none => none
  | .write off new_byte => write_byte c start off new_byte

/-- A finite sequence of calls, stopping at the first undefined one. -/
def run : List call → cache_t → List Nat → Option (cache_t × List Nat)
  | [], c, start => some (c, start)
  | k :: ks, c, start =>
    match step c start k with
    | some (c', start') => run ks c' start'
    | none => none

/-- Every valid line holds the bytes the store has at the addresses the line
stands for (tag, set index, offset). -/
def coherent (c : cache_t) (start : List Nat) : Prop :=
  ∀ i j, ∀ l ∈ line_at c i j, l.valid ≠ 0 → ∀ k < 2 ^ c.b,
    l.block[k]? = start[l.tag * 2 ^ (c.s + c.b) + i * 2 ^ c.b + k]?

/-- No set holds two valid lines with the same tag. -/
def no_duplicate (c : cache_t) : Prop :=
  ∀ i j j', ∀ l ∈ line_at c i j, ∀ l' ∈ line_at c i j',
    l.valid ≠ 0 → l'.valid ≠ 0 → l.tag = l'.tag → j = j'

/-- The invariant of the reachable states: shape, coherence with the store and
no duplicate tag. -/
def state_ok (c : cache_t) (start : List Nat) : Prop :=
  well_formed c ∧ coherent c start ∧ no_duplicate c

/-- What a caller can tell of a returned `cache_t` without dereferencing the
table pointer: the four geometry fields and whether the pointer is `NULL`. -/
def observe (c : cache_t) : Nat × Nat × Nat × Nat × Bool :=
  (c.s, c.t, c.b, c.E, decide (c.cache = table_ptr.null))

/-- The line `initialize_cache` sets up (l.54-57): invalid, frequency and tag 0,
a block of `2 ^ b` zero bytes. -/
def zero_line (b : Nat) : cache_line_t :=
  { valid := 0, frequency := 0, tag := 0, block := List.replicate (2 ^ b) 0 }

/-- In every set the valid lines come first. -/
def valid_front (c : cache_t) : Prop :=
  ∀ i j k, k < j → ∀ l ∈ line_at c i j, l.valid ≠ 0 → ∀ l' ∈ line_at c i k, l'.valid ≠ 0

/-- Every invalid line is as `initialize_cache` left it. -/
def invalid_untouched (c : cache_t) : Prop :=
  ∀ i j, ∀ l ∈ line_at c i j, l.valid = 0 → l = zero_line c.b

/-- Every set of the table has `E` lines. -/
def rows_ok (c : cache_t) : Prop :=
  ∀ i, ∀ row ∈ set_at c i, row.length = c.E

/-! ## Address arithmetic -/

theorem block_of_eq (b off : Nat) : block_of b off = off % 2 ^ b := by
  simp [block_of, Nat.one_shiftLeft]

/-- The `int` `1 << s` is `2 ^ s` as long as `s ≤ 30`. -/
theorem shl_int_toNat (s : Nat) (hs : s ≤ 30) : (shl_int s).toNat = 2 ^ s := by
  have key : ∀ k, k < 31 → (int32 (2 ^ k)).toNat = 2 ^ k := by decide
  have hmod : s % 32 = s := Nat.mod_eq_of_lt (by omega)
  unfold shl_int
  rw [hmod]
  exact key s (by omega)

/-- The `int` mask `(1 << s) - 1` has the `s % 32` low bits set. -/
theorem int_mask (s : Nat) : (int32 (shl_int s - 1)).toNat = 2 ^ (s % 32) - 1 := by
  have key : ∀ k, k < 32 → (int32 (int32 (2 ^ k) - 1)).toNat = 2 ^ k - 1 := by decide
  unfold shl_int
  exact key (s % 32) (Nat.mod_lt s (by decide))

theorem int_mask_of_le (s : Nat) (hs : s ≤ 30) :
    (int32 (shl_int s - 1)).toNat = 2 ^ s - 1 := by
  rw [int_mask, Nat.mod_eq_of_lt (by omega)]

theorem set_of_eq (s b off : Nat) (hs : s ≤ 30) : set_of s b off = off / 2 ^ b % 2 ^ s := by
  simp [set_of, int_mask_of_le s hs, Nat.shiftRight_eq_div_pow]

theorem tag_of_eq (s b off : Nat) : tag_of s b off = off / 2 ^ (s + b) := by
  simp [tag_of, Nat.shiftRight_eq_div_pow]

theorem block_of_lt (b off : Nat) : block_of b off < 2 ^ b := by
  rw [block_of_eq]; exact Nat.mod_lt _ (Nat.two_pow_pos b)

/-- The set index is below `2 ^ s` for every `s`: the `int` mask is never
larger than `2 ^ s - 1`. -/
theorem set_of_lt (s b off : Nat) : set_of s b off < 2 ^ s := by
  have h1 : set_of s b off ≤ 2 ^ (s % 32) - 1 := by
    unfold set_of
    rw [int_mask]
    exact Nat.and_le_right
  have h2 : 2 ^ (s % 32) ≤ 2 ^ s := Nat.pow_le_pow_right (by decide) (Nat.mod_le s 32)
  have h3 : 0 < 2 ^ (s % 32) := Nat.two_pow_pos _
  omega

theorem block_of_le (b off : Nat) : block_of b off ≤ off := by
  rw [block_of_eq]; exact Nat.mod_le _ _

/-- The three fields put together give the address back. -/
theorem decode_rebuild (s b off : Nat) (hs : s ≤ 30) :
    tag_of s b off * 2 ^ (s + b) + set_of s b off * 2 ^ b + block_of b off = off := by
  rw [tag_of_eq, set_of_eq s b off hs, block_of_eq]
  have h1 := Nat.div_add_mod off (2 ^ b)
  have h2 := Nat.div_add_mod (off / 2 ^ b) (2 ^ s)
  have h3 : off / 2 ^ (s + b) = off / 2 ^ b / 2 ^ s := by
    rw [Nat.add_comm, Nat.pow_add, Nat.div_div_eq_div_mul]
  rw [h3, Nat.pow_add]
  calc off / 2 ^ b / 2 ^ s * (2 ^ s * 2 ^ b) + off / 2 ^ b % 2 ^ s * 2 ^ b + off % 2 ^ b
      = 2 ^ b * (2 ^ s * (off / 2 ^ b / 2 ^ s) + off / 2 ^ b % 2 ^ s) + off % 2 ^ b := by ring
    _ = off := by rw [h2, h1]

/-- Start address of the block of `off`. -/
theorem block_base (s b off : Nat) (hs : s ≤ 30) :
    off - block_of b off = tag_of s b off * 2 ^ (s + b) + set_of s b off * 2 ^ b := by
  have := decode_rebuild s b off hs
  omega

/-- An address written as tag, set index and offset decodes to these three. -/
theorem decode_unique (s b g i k : Nat) (hs30 : s ≤ 30) (hi : i < 2 ^ s) (hk : k < 2 ^ b) :
    tag_of s b (g * 2 ^ (s + b) + i * 2 ^ b + k) = g ∧
    set_of s b (g * 2 ^ (s + b) + i * 2 ^ b + k) = i ∧
    block_of b (g * 2 ^ (s + b) + i * 2 ^ b + k) = k := by
  have hb : 0 < 2 ^ b := Nat.two_pow_pos b
  have hs : 0 < 2 ^ s := Nat.two_pow_pos s
  have e1 : g * 2 ^ (s + b) + i * 2 ^ b + k = k + 2 ^ b * (i + 2 ^ s * g) := by
    rw [Nat.pow_add]; ring
  have hdiv : (g * 2 ^ (s + b) + i * 2 ^ b + k) / 2 ^ b = i + 2 ^ s * g := by
    rw [e1, Nat.add_mul_div_left _ _ hb, Nat.div_eq_of_lt hk, Nat.zero_add]
  refine ⟨?_, ?_, ?_⟩
  · have h3 : ∀ x, x / 2 ^ (s + b) = x / 2 ^ b / 2 ^ s := fun x => by
      rw [Nat.add_comm, Nat.pow_add, Nat.div_div_eq_div_mul]
    rw [tag_of_eq, h3, hdiv, Nat.add_mul_div_left _ _ hs, Nat.div_eq_of_lt hi, Nat.zero_add]
  · rw [set_of_eq _ _ _ hs30, hdiv, Nat.add_mul_mod_self_left, Nat.mod_eq_of_lt hi]
  · rw [block_of_eq, e1, Nat.add_mul_mod_self_left, Nat.mod_eq_of_lt hk]

/-! ### The hit scan -/

theorem getElem?_some_lt {α : Type} {xs : List α} {i : Nat} {x : α} (h : xs[i]? = some x) :
    i < xs.length := by
  rcases Nat.lt_or_ge i xs.length with h' | h'
  · exact h'
  · rw [List.getElem?_eq_none h'] at h; cases h

theorem hit_loop_inv (set : List cache_line_t) (tag : Nat) :
    ∀ n i r, hit_loop set tag n i = some r →
      match r with
      | some k => i ≤ k ∧ k < i + n ∧ (∃ l ∈ set[k]?, is_hit tag l) ∧
          ∀ j, i ≤ j → j < k → ∀ l ∈ set[j]?, ¬ is_hit tag l
      | none => ∀ j, i ≤ j → j < i + n → ∀ l ∈ set[j]?, ¬ is_hit tag l := by
  intro n
  induction n with
  | zero =>
    intro i r h
    simp only [hit_loop, Option.some.injEq] at h
    subst h
    intro j h1 h2
    omega
  | succ n ih =>
    intro i r h
    rw [hit_loop] at h
    cases hl : set[i]? with
    | none => simp [hl] at h
    | some l =>
      simp only [hl] at h
      by_cases hh : l.valid ≠ 0 ∧ l.tag = tag
      · rw [if_pos hh] at h
        cases h
        exact ⟨Nat.le_refl i, by omega, ⟨l, hl, hh⟩, fun j h1 h2 => by omega⟩
      · rw [if_neg hh] at h
        have h2 := ih (i + 1) r h
        cases r with
        | some k =>
          obtain ⟨a1, a2, a3, a4⟩ := h2
          refine ⟨by omega, by omega, a3, ?_⟩
          intro j hj1 hj2 l' hl'
          rcases Nat.eq_or_lt_of_le hj1 with e | e
          · subst e
            rw [hl] at hl'
            cases hl'
            exact hh
          · exact a4 j e hj2 l' hl'
        | none =>
          intro j hj1 hj2 l' hl'
          rcases Nat.eq_or_lt_of_le hj1 with e | e
          · subst e
            rw [hl] at hl'
            cases hl'
            exact hh
          · exact h2 j e (by omega) l' hl'

theorem hit_loop_total (set : List cache_line_t) (tag : Nat) :
    ∀ n i, i + n ≤ set.length → ∃ r, hit_loop set tag n i = some r := by
  intro n
  induction n with
  | zero => intro i _; exact ⟨none, rfl⟩
  | succ n ih =>
    intro i h
    have hi : i < set.length := by omega
    rw [hit_loop, List.getElem?_eq_getElem hi]
    by_cases hh : set[i].valid ≠ 0 ∧ set[i].tag = tag
    · exact ⟨some i, by simp only [if_pos hh]⟩
    · simp only [if_neg hh]
      exact ih (i + 1) (by omega)

/-- Two first hits of one set are the same line. -/
theorem first_hit_unique {set : List cache_line_t} {tag j k : Nat}
    (hj : first_hit set tag j) (hk : first_hit set tag k) : j = k := by
  obtain ⟨⟨l, hl, hh⟩, hlow⟩ := hj
  obtain ⟨⟨l', hl', hh'⟩, hlow'⟩ := hk
  rcases Nat.lt_trichotomy j k with h | h | h
  · exact absurd hh (hlow' j h l hl)
  · exact h
  · exact absurd hh' (hlow k h l' hl')

theorem first_hit_not_no_hit {set : List cache_line_t} {tag j : Nat}
    (hj : first_hit set tag j) : ¬ no_hit set tag := by
  obtain ⟨⟨l, hl, hh⟩, _⟩ := hj
  intro hn
  exact hn l (List.getElem?_mem hl) hh

/-- Result of the hit scan over a whole set: the first hitting line. -/
theorem hit_loop_some_iff (set : List cache_line_t) (tag E j : Nat) (hE : set.length = E) :
    hit_loop set tag E 0 = some (some j) ↔ first_hit set tag j := by
  constructor
  · intro h
    have := hit_loop_inv set tag E 0 _ h
    obtain ⟨_, _, a3, a4⟩ := this
    exact ⟨a3, fun k hk => a4 k (Nat.zero_le k) hk⟩
  · intro hj
    obtain ⟨r, hr⟩ := hit_loop_total set tag E 0 (by omega)
    have := hit_loop_inv set tag E 0 _ hr
    cases r with
    | some k =>
      obtain ⟨_, _, a3, a4⟩ := this
      have : first_hit set tag k := ⟨a3, fun k hk => a4 k (Nat.zero_le k) hk⟩
      rw [hr, first_hit_unique hj this]
    | none =>
      exfalso
      obtain ⟨⟨l, hl, hh⟩, _⟩ := hj
      have hlt := getElem?_some_lt hl
      exact this j (Nat.zero_le j) (by omega) l hl hh

/-- Result of the hit scan over a whole set: a miss. -/
theorem hit_loop_none_iff (set : List cache_line_t) (tag E : Nat) (hE : set.length = E) :
    hit_loop set tag E 0 = some none ↔ no_hit set tag := by
  constructor
  · intro h l hl
    have := hit_loop_inv set tag E 0 _ h
    obtain ⟨j, hj, e⟩ := List.getElem_of_mem hl
    refine this j (Nat.zero_le j) (by omega) l ?_
    rw [List.getElem?_eq_getElem hj, e]; rfl
  · intro hn
    obtain ⟨r, hr⟩ := hit_loop_total set tag E 0 (by omega)
    have := hit_loop_inv set tag E 0 _ hr
    cases r with
    | some k =>
      obtain ⟨_, _, a3, a4⟩ := this
      exact absurd hn (first_hit_not_no_hit ⟨a3, fun k hk => a4 k (Nat.zero_le k) hk⟩)
    | none => exact hr

/-- A set either has a first hitting line or no hitting line. -/
theorem hit_or_miss (set : List cache_line_t) (tag : Nat) :
    (∃ j, first_hit set tag j) ∨ no_hit set tag := by
  obtain ⟨r, hr⟩ := hit_loop_total set tag set.length 0 (by omega)
  cases r with
  | some k => exact Or.inl ⟨k, (hit_loop_some_iff set tag _ k rfl).1 hr⟩
  | none => exact Or.inr ((hit_loop_none_iff set tag _ rfl).1 hr)

/-! ### The scan for an empty line -/

theorem empty_loop_inv (set : List cache_line_t) :
    ∀ n i r, empty_loop set n i = some r →
      i ≤ r ∧ r ≤ i + n ∧ (∀ j, i ≤ j → j < r → ∀ l ∈ set[j]?, l.valid ≠ 0) ∧
      (r < i + n → ∃ l ∈ set[r]?, l.valid = 0) := by
  intro n
  induction n with
  | zero =>
    intro i r h
    simp only [empty_loop, Option.some.injEq] at h
    subst h
    exact ⟨Nat.le_refl _, Nat.le_refl _, fun j h1 h2 => by omega, fun h => by omega⟩
  | succ n ih =>
    intro i r h
    rw [empty_loop] at h
    cases hl : set[i]? with
    | none => simp [hl] at h
    | some l =>
      simp only [hl] at h
      by_cases hv : l.valid ≠ 0
      · rw [if_pos hv] at h
        obtain ⟨a1, a2, a3, a4⟩ := ih (i + 1) r h
        refine ⟨by omega, by omega, ?_, fun hr => a4 (by omega)⟩
        intro j hj1 hj2 l' hl'
        rcases Nat.eq_or_lt_of_le hj1 with e | e
        · subst e
          rw [hl] at hl'
          cases hl'
          exact hv
        · exact a3 j e hj2 l' hl'
      · rw [if_neg hv] at h
        cases h
        exact ⟨Nat.le_refl _, by omega, fun j h1 h2 => by omega,
          fun _ => ⟨l, hl, by simpa using hv⟩⟩

theorem empty_loop_total (set : List cache_line_t) :
    ∀ n i, i + n ≤ set.length → ∃ r, empty_loop set n i = some r := by
  intro n
  induction n with
  | zero => intro i _; exact ⟨i, rfl⟩
  | succ n ih =>
    intro i h
    have hi : i < set.length := by omega
    rw [empty_loop, List.getElem?_eq_getElem hi]
    by_cases hv : set[i].valid ≠ 0
    · simp only [if_pos hv]
      exact ih (i + 1) (by omega)
    · exact ⟨i, by simp only [if_neg hv]⟩

/-! ### `find_least_frequent` -/

theorem lfu_loop_inv (set : List cache_line_t) :
    ∀ n i lfu mf r, lfu_loop set n i lfu mf = some r →
      (∃ l ∈ set[lfu]?, l.frequency = mf) →
      (∀ j < i, ∀ l ∈ set[j]?, mf ≤ l.frequency) →
      (∀ j < lfu, ∀ l ∈ set[j]?, mf < l.frequency) →
      lfu ≤ i →
      ∃ l ∈ set[r]?, (∀ j < i + n, ∀ l' ∈ set[j]?, l.frequency ≤ l'.frequency) ∧
        ∀ j < r, ∀ l' ∈ set[j]?, l.frequency < l'.frequency := by
  intro n
  induction n with
  | zero =>
    intro i lfu mf r h hl hle hlt _
    simp only [lfu_loop, Option.some.injEq] at h
    subst h
    obtain ⟨l, hl, e⟩ := hl
    subst e
    exact ⟨l, hl, hle, hlt⟩
  | succ n ih =>
    intro i lfu mf r h hl hle hlt hi
    rw [lfu_loop] at h
    cases hli : set[i]? with
    | none => simp [hli] at h
    | some li =>
      simp only [hli] at h
      by_cases hc : li.frequency < mf
      · rw [if_pos hc] at h
        obtain ⟨l, hl', a1, a2⟩ := ih (i + 1) i li.frequency r h ⟨li, hli, rfl⟩
          (by
            intro j hj l' hl'
            rcases Nat.eq_or_lt_of_le (Nat.le_of_lt_succ hj) with e | e
            · subst e
              rw [hli] at hl'
              cases hl'
              exact Nat.le_refl _
            · exact Nat.le_of_lt (Nat.lt_of_lt_of_le hc (hle j e l' hl')))
          (fun j hj l' hl' => Nat.lt_of_lt_of_le hc (hle j hj l' hl'))
          (Nat.le_succ i)
        exact ⟨l, hl', fun j hj => a1 j (by omega), a2⟩
      · rw [if_neg hc] at h
        obtain ⟨l, hl', a1, a2⟩ := ih (i + 1) lfu mf r h hl
          (by
            intro j hj l' hl'
            rcases Nat.eq_or_lt_of_le (Nat.le_of_lt_succ hj) with e | e
            · subst e
              rw [hli] at hl'
              cases hl'
              exact Nat.le_of_not_lt hc
            · exact hle j e l' hl')
          hlt (by omega)
        exact ⟨l, hl', fun j hj => a1 j (by omega), a2⟩

theorem lfu_loop_total (set : List cache_line_t) :
    ∀ n i lfu mf, i + n ≤ set.length → ∃ r, lfu_loop set n i lfu mf = some r := by
  intro n
  induction n with
  | zero => intro i lfu mf _; exact ⟨lfu, rfl⟩
  | succ n ih =>
    intro i lfu mf h
    have hi : i < set.length := by omega
    rw [lfu_loop, List.getElem?_eq_getElem hi]
    by_cases hc : set[i].frequency < mf
    · simp only [if_pos hc]
      exact ih (i + 1) _ _ (by omega)
    · simp only [if_neg hc]
      exact ih (i + 1) _ _ (by omega)

theorem first_least_frequent_unique {set : List cache_line_t} {j k : Nat}
    (hj : first_least_frequent set j) (hk : first_least_frequent set k) : j = k := by
  obtain ⟨l, hl, hmin, hlow⟩ := hj
  obtain ⟨l', hl', hmin', hlow'⟩ := hk
  rcases Nat.lt_trichotomy j k with h | h | h
  · have := hlow' j h l hl
    have := hmin l' (List.getElem?_mem hl')
    omega
  · exact h
  · have := hlow k h l' hl'
    have := hmin' l (List.getElem?_mem hl)
    omega

/-- On a set of `E ≥ 1` lines `find_least_frequent` returns the first line of
least frequency. -/
theorem find_least_frequent_spec (set : List cache_line_t) (E : Nat)
    (hlen : set.length = E) (hE : 1 ≤ E) :
    ∃ j, find_least_frequent set E = some j ∧ j < E ∧ first_least_frequent set j := by
  have h0 : 0 < set.length := by omega
  obtain ⟨r, hr⟩ := lfu_loop_total set E 0 0 set[0].frequency (by omega)
  have hfl : find_least_frequent set E = some r := by
    rw [find_least_frequent, List.getElem?_eq_getElem h0]
    exact hr
  obtain ⟨l, hl, a1, a2⟩ := lfu_loop_inv set E 0 0 _ r hr
    ⟨set[0], List.getElem?_eq_getElem h0, rfl⟩ (fun j hj => by omega) (fun j hj => by omega)
    (Nat.le_refl 0)
  refine ⟨r, hfl, ?_, l, hl, ?_, a2⟩
  · have := getElem?_some_lt hl
    omega
  · intro l' hl'
    obtain ⟨j, hj, e⟩ := List.getElem_of_mem hl'
    refine a1 j (by omega) l' ?_
    rw [List.getElem?_eq_getElem hj, e]; rfl

/-! ### Choice of the destination line -/

theorem first_empty_unique {set : List cache_line_t} {j k : Nat}
    (hj : first_empty set j) (hk : first_empty set k) : j = k := by
  obtain ⟨⟨l, hl, hv⟩, hlow⟩ := hj
  obtain ⟨⟨l', hl', hv'⟩, hlow'⟩ := hk
  rcases Nat.lt_trichotomy j k with h | h | h
  · exact absurd hv (hlow' j h l hl)
  · exact h
  · exact absurd hv' (hlow k h l' hl')

/-- With an invalid line in the set, the destination is the first invalid line. -/
theorem line_to_insert_empty (set : List cache_line_t) (E j : Nat) (hlen : set.length = E)
    (hj : first_empty set j) : line_to_insert set E = some j := by
  obtain ⟨r, hr⟩ := empty_loop_total set E 0 (by omega)
  obtain ⟨_, a2, a3, a4⟩ := empty_loop_inv set E 0 r hr
  obtain ⟨⟨l, hl, hv⟩, hlow⟩ := hj
  have hjl := getElem?_some_lt hl
  have hrE : r < E := by
    rcases Nat.lt_or_ge r E with h | h
    · exact h
    · exact absurd hv (a3 j (Nat.zero_le j) (by omega) l hl)
  have hfe : first_empty set r :=
    ⟨a4 (by omega), fun k hk => a3 k (Nat.zero_le k) hk⟩
  have e : r = j := first_empty_unique hfe ⟨⟨l, hl, hv⟩, hlow⟩
  subst e
  rw [line_to_insert, hr]
  simp only [if_neg (Nat.ne_of_lt hrE)]

/-- With every line valid, the destination is the one `find_least_frequent`
returns. -/
theorem line_to_insert_full (set : List cache_line_t) (E : Nat) (hlen : set.length = E)
    (hfull : ∀ l ∈ set, l.valid ≠ 0) : line_to_insert set E = find_least_frequent set E := by
  obtain ⟨r, hr⟩ := empty_loop_total set E 0 (by omega)
  obtain ⟨_, a2, a3, a4⟩ := empty_loop_inv set E 0 r hr
  have hrE : r = E := by
    rcases Nat.lt_or_ge r E with h | h
    · obtain ⟨l, hl, hv⟩ := a4 (by omega)
      exact absurd hv (hfull l (List.getElem?_mem hl))
    · omega
  rw [line_to_insert, hr]
  simp only [if_pos hrE]

/-- A set has a first invalid line or all its lines are valid. -/
theorem empty_or_full (set : List cache_line_t) :
    (∃ j, first_empty set j) ∨ ∀ l ∈ set, l.valid ≠ 0 := by
  obtain ⟨r, hr⟩ := empty_loop_total set set.length 0 (by omega)
  obtain ⟨_, a2, a3, a4⟩ := empty_loop_inv set set.length 0 r hr
  rcases Nat.lt_or_ge r set.length with h | h
  · exact Or.inl ⟨r, a4 (by omega), fun k hk => a3 k (Nat.zero_le k) hk⟩
  · right
    intro l hl
    obtain ⟨j, hj, e⟩ := List.getElem_of_mem hl
    refine a3 j (Nat.zero_le j) (by omega) l ?_
    rw [List.getElem?_eq_getElem hj, e]; rfl

/-- The destination line of a miss on a set of `E ≥ 1` lines. -/
theorem line_to_insert_spec (set : List cache_line_t) (E : Nat) (hlen : set.length = E)
    (hE : 1 ≤ E) :
    ∃ j, line_to_insert set E = some j ∧ j < E ∧
      (first_empty set j ∨ ((∀ l ∈ set, l.valid ≠ 0) ∧ first_least_frequent set j)) := by
  rcases empty_or_full set with ⟨j, hj⟩ | hfull
  · refine ⟨j, line_to_insert_empty set E j hlen hj, ?_, Or.inl hj⟩
    obtain ⟨⟨l, hl, _⟩, _⟩ := hj
    have := getElem?_some_lt hl
    omega
  · obtain ⟨j, h1, h2, h3⟩ := find_least_frequent_spec set E hlen hE
    exact ⟨j, by rw [line_to_insert_full set E hlen hfull, h1], h2, Or.inr ⟨hfull, h3⟩⟩

/-! ### The block copy -/

theorem copy_loop_inv (start : List Nat) (base : Nat) :
    ∀ n i blk r, copy_loop start base n i blk = some r →
      r.length = blk.length ∧
      (0 < n → i + n ≤ blk.length ∧ base + i + n ≤ start.length) ∧
      ∀ j, r[j]? = if i ≤ j ∧ j < i + n then start[base + j]? else blk[j]? := by
  intro n
  induction n with
  | zero =>
    intro i blk r h
    simp only [copy_loop, Option.some.injEq] at h
    subst h
    refine ⟨rfl, fun h => by omega, fun j => ?_⟩
    rw [if_neg (by omega)]
  | succ n ih =>
    intro i blk r h
    rw [copy_loop] at h
    cases hv : start[base + i]? with
    | none => simp [hv] at h
    | some v =>
      simp only [hv] at h
      by_cases hi : i < blk.length
      · rw [if_pos hi] at h
        obtain ⟨a1, a2, a3⟩ := ih (i + 1) (blk.set i v) r h
        have hs := getElem?_some_lt hv
        rw [List.length_set] at a1 a2
        refine ⟨a1, fun _ => ?_, fun j => ?_⟩
        · rcases Nat.eq_zero_or_pos n with h0 | h0
          · subst h0; omega
          · have := a2 h0; omega
        · rw [a3 j]
          by_cases hj : j = i
          · subst hj
            rw [if_neg (by omega), if_pos (by omega), List.getElem?_set_self hi, hv]
          · rw [List.getElem?_set_ne (Ne.symm hj)]
            by_cases hc : i + 1 ≤ j ∧ j < i + 1 + n
            · rw [if_pos hc, if_pos (by omega)]
            · rw [if_neg hc, if_neg (by omega)]
      · rw [if_neg hi] at h
        cases h

theorem copy_loop_total (start : List Nat) (base : Nat) :
    ∀ n i blk, i + n ≤ blk.length → base + i + n ≤ start.length →
      ∃ r, copy_loop start base n i blk = some r := by
  intro n
  induction n with
  | zero => intro i blk _ _; exact ⟨blk, rfl⟩
  | succ n ih =>
    intro i blk h1 h2
    have hs : base + i < start.length := by omega
    have hi : i < blk.length := by omega
    rw [copy_loop, List.getElem?_eq_getElem hs]
    simp only [if_pos hi]
    exact ih (i + 1) _ (by rw [List.length_set]; omega) (by omega)

/-- Copying a whole block gives the bytes of the store from `base` on. -/
theorem copy_loop_eq (start : List Nat) (base n : Nat) (blk : List Nat)
    (hb : blk.length = n) (hs : base + n ≤ start.length) :
    copy_loop start base n 0 blk = some ((start.drop base).take n) := by
  obtain ⟨r, hr⟩ := copy_loop_total start base n 0 blk (by omega) (by omega)
  obtain ⟨a1, _, a3⟩ := copy_loop_inv start base n 0 blk r hr
  rw [hr]
  congr 1
  apply List.ext_getElem?
  intro j
  rw [a3 j, List.getElem?_take, List.getElem?_drop]
  by_cases hj : j < n
  · rw [if_pos ⟨Nat.zero_le j, by omega⟩, if_pos hj]
  · rw [if_neg (by omega), if_neg hj, List.getElem?_eq_none (by omega)]

/-- A block copy that succeeds stayed inside the store. -/
theorem copy_loop_bound (start : List Nat) (base n : Nat) (blk r : List Nat) (hn : 0 < n)
    (h : copy_loop start base n 0 blk = some r) : base + n ≤ start.length := by
  obtain ⟨_, a2, _⟩ := copy_loop_inv start base n 0 blk r h
  have := a2 hn
  omega

/-! ### Accessors of the table -/

theorem well_formed_iff (c : cache_t) :
    well_formed c ↔ 1 ≤ c.E ∧ ∃ sets, c.cache.deref = some sets ∧
      table_shape c.s c.b c.E sets := by
  unfold well_formed
  cases c.cache.deref <;> simp

@[simp] theorem deref_table (sets : List (List cache_line_t)) :
    (table_ptr.table sets).deref = some sets := rfl

@[simp] theorem put_line_s (c : cache_t) (i j : Nat) (l : cache_line_t) :
    (put_line c i j l).s = c.s := by
  unfold put_line; split <;> rfl

@[simp] theorem put_line_t (c : cache_t) (i j : Nat) (l : cache_line_t) :
    (put_line c i j l).t = c.t := by
  unfold put_line; split <;> rfl

@[simp] theorem put_line_b (c : cache_t) (i j : Nat) (l : cache_line_t) :
    (put_line c i j l).b = c.b := by
  unfold put_line; split <;> rfl

@[simp] theorem put_line_E (c : cache_t) (i j : Nat) (l : cache_line_t) :
    (put_line c i j l).E = c.E := by
  unfold put_line; split <;> rfl

theorem set_at_put_line (c : cache_t) (i j : Nat) (l : cache_line_t) (i' : Nat) :
    set_at (put_line c i j l) i' =
      if i' = i then (set_at c i).map (fun row => row.set j l) else set_at c i' := by
  unfold put_line
  split
  · rename_i sets row hd hr
    have hr' := hr
    simp only [set_at, hd] at hr'
    by_cases h : i' = i
    · subst h
      simp only [if_true, hr, Option.map_some']
      simp only [set_at, deref_table]
      rw [List.getElem?_set_self (getElem?_some_lt hr')]
    · simp only [if_neg h]
      simp only [set_at, deref_table, hd]
      rw [List.getElem?_set_ne (Ne.symm h)]
  · rename_i hne
    by_cases h : i' = i
    · subst h
      simp only [if_true]
      cases hd : c.cache.deref with
      | none => simp [set_at, hd]
      | some sets =>
        cases hr : set_at c i' with
        | none => simp
        | some row => exact absurd hr (hne sets row hd)
    · simp only [if_neg h]

theorem line_at_put_line (c : cache_t) (i j : Nat) (l : cache_line_t) (i' j' : Nat) :
    line_at (put_line c i j l) i' j' =
      if i' = i ∧ j' = j then (line_at c i j).map (fun _ => l) else line_at c i' j' := by
  unfold line_at
  rw [set_at_put_line]
  by_cases h : i' = i
  · subst h
    simp only [if_true, true_and]
    cases hr : set_at c i' with
    | none => simp
    | some row =>
      simp only [Option.map_some']
      by_cases hj : j' = j
      · subst hj
        simp only [if_true]
        rw [List.getElem?_set_self']
        cases row[j']? <;> rfl
      · simp only [if_neg hj]
        rw [List.getElem?_set_ne (Ne.symm hj)]
  · simp only [if_neg h, h, false_and, if_false]

theorem line_at_put_line_ne (c : cache_t) (i j : Nat) (l : cache_line_t) (i' j' : Nat)
    (h : ¬ (i' = i ∧ j' = j)) : line_at (put_line c i j l) i' j' = line_at c i' j' := by
  rw [line_at_put_line, if_neg h]

theorem line_at_put_line_self (c : cache_t) (i j : Nat) (l l0 : cache_line_t)
    (h : line_at c i j = some l0) : line_at (put_line c i j l) i j = some l := by
  rw [line_at_put_line, if_pos ⟨rfl, rfl⟩, h]; rfl

theorem line_at_eq (c : cache_t) (i j : Nat) (row : List cache_line_t)
    (h : set_at c i = some row) : line_at c i j = row[j]? := by
  simp only [line_at, h]

/-- In a well-formed cache the set of every address exists and has `E` lines
with blocks of `2 ^ b` bytes. -/
theorem well_formed_set (c : cache_t) (h : well_formed c) (i : Nat) (hi : i < 2 ^ c.s) :
    ∃ row, set_at c i = some row ∧ row.length = c.E ∧
      ∀ l ∈ row, l.block.length = 2 ^ c.b := by
  obtain ⟨_, sets, hd, hlen, hrows⟩ := (well_formed_iff c).1 h
  have hi' : i < sets.length := by omega
  refine ⟨sets[i], ?_, hrows _ (List.getElem_mem hi')⟩
  simp only [set_at, hd]
  exact List.getElem?_eq_getElem hi'

theorem well_formed_line (c : cache_t) (h : well_formed c) (i j : Nat) (l : cache_line_t)
    (hl : line_at c i j = some l) : i < 2 ^ c.s ∧ j < c.E ∧ l.block.length = 2 ^ c.b := by
  obtain ⟨_, sets, hd, hlen, hrows⟩ := (well_formed_iff c).1 h
  unfold line_at at hl
  cases hr : set_at c i with
  | none => simp [hr] at hl
  | some row =>
    simp only [hr] at hl
    have hr' := hr
    simp only [set_at, hd] at hr'
    have hi := getElem?_some_lt hr'
    have hmem := List.getElem?_mem hr'
    obtain ⟨h1, h2⟩ := hrows row hmem
    have hj := getElem?_some_lt hl
    exact ⟨by omega, by omega, h2 l (List.getElem?_mem hl)⟩

theorem well_formed_put_line (c : cache_t) (h : well_formed c) (i j : Nat) (l : cache_line_t)
    (hl : l.block.length = 2 ^ c.b) : well_formed (put_line c i j l) := by
  obtain ⟨hE, sets, hd, hlen, hrows⟩ := (well_formed_iff c).1 h
  rw [well_formed_iff]
  unfold put_line
  split
  · rename_i sets' row hd' hr
    rw [hd] at hd'
    cases hd'
    have hr' := hr
    simp only [set_at, hd] at hr'
    refine ⟨hE, _, rfl, ?_, ?_⟩
    · simpa using hlen
    · intro row' hrow'
      obtain ⟨h1, h2⟩ := hrows row (List.getElem?_mem hr')
      rcases List.mem_or_eq_of_mem_set hrow' with hm | hm
      · exact hrows row' hm
      · subst hm
        refine ⟨by simpa using h1, ?_⟩
        intro l' hl'
        rcases List.mem_or_eq_of_mem_set hl' with hm | hm
        · exact h2 l' hm
        · subst hm; exact hl
  · exact ⟨hE, sets, hd, hlen, hrows⟩

/-! ### `read_byte` and `write_byte` in closed form -/

theorem set_at_some {c : cache_t} {i : Nat} {row : List cache_line_t}
    (h : set_at c i = some row) : ∃ sets, c.cache.deref = some sets ∧ sets[i]? = some row := by
  unfold set_at at h
  cases hd : c.cache.deref with
  | none => simp [hd] at h
  | some sets => exact ⟨sets, rfl, by simpa [hd] using h⟩

theorem put_line_eq {c : cache_t} {i : Nat} {sets : List (List cache_line_t)}
    {row : List cache_line_t} (hd : c.cache.deref = some sets) (hr : sets[i]? = some row)
    (j : Nat) (l : cache_line_t) :
    put_line c i j l = { c with cache := .table (sets.set i (row.set j l)) } := by
  have : set_at c i = some row := by simp only [set_at, hd, hr]
  unfold put_line
  simp only [hd, this]

theorem block_in_store_lt {b : Nat} {start : List Nat} {off : Nat}
    (h : block_in_store b start off) : off < start.length := by
  unfold block_in_store at h
  have := block_of_lt b off
  have := block_of_le b off
  omega

theorem length_fetch {b : Nat} {start : List Nat} {off : Nat}
    (h : block_in_store b start off) : (fetch b start off).length = 2 ^ b := by
  unfold block_in_store at h
  unfold fetch
  rw [List.length_take, List.length_drop]
  omega

theorem getElem?_fetch (b : Nat) (start : List Nat) (off k : Nat) (hk : k < 2 ^ b) :
    (fetch b start off)[k]? = start[off - block_of b off + k]? := by
  unfold fetch
  rw [List.getElem?_take, if_pos hk, List.getElem?_drop]

theorem getElem?_fetch_self (b : Nat) (start : List Nat) (off : Nat) :
    (fetch b start off)[block_of b off]? = start[off]? := by
  rw [getElem?_fetch b start off _ (block_of_lt b off)]
  have := block_of_le b off
  congr 1
  omega

/-- A read that hits line `j`. -/
theorem read_byte_hit (c : cache_t) (start : List Nat) (off : Nat) (row : List cache_line_t)
    (j : Nat) (l : cache_line_t) (v : Nat)
    (hrow : set_at c (set_of c.s c.b off) = some row) (hlen : row.length = c.E)
    (hj : first_hit row (tag_of c.s c.b off) j) (hl : row[j]? = some l)
    (hv : l.block[block_of c.b off]? = some v) :
    read_byte c start off = some (put_line c (set_of c.s c.b off) j (bump l), start, v) := by
  obtain ⟨sets, hd, hr⟩ := set_at_some hrow
  rw [put_line_eq hd hr]
  unfold read_byte
  simp only [hd, hr, (hit_loop_some_iff row _ c.E j hlen).2 hj, hl, hv, bump]

/-- A read that misses, with the block inside the store. -/
theorem read_byte_miss (c : cache_t) (start : List Nat) (off : Nat) (row : List cache_line_t)
    (idx : Nat) (line : cache_line_t) (v : Nat)
    (hrow : set_at c (set_of c.s c.b off) = some row) (hlen : row.length = c.E)
    (hmiss : no_hit row (tag_of c.s c.b off)) (hidx : line_to_insert row c.E = some idx)
    (hline : row[idx]? = some line) (hblk : line.block.length = 2 ^ c.b)
    (hin : block_in_store c.b start off) (hv : start[off]? = some v) :
    read_byte c start off =
      some (put_line c (set_of c.s c.b off) idx
        (fill_line (tag_of c.s c.b off) (fetch c.b start off)), start, v) := by
  obtain ⟨sets, hd, hr⟩ := set_at_some hrow
  rw [put_line_eq hd hr]
  unfold read_byte
  have hc := copy_loop_eq start (off - block_of c.b off) (2 ^ c.b) line.block hblk hin
  have hv' : (fetch c.b start off)[block_of c.b off]? = some v := by
    rw [getElem?_fetch_self, hv]
  unfold fetch at hv'
  simp only [hd, hr, (hit_loop_none_iff row _ c.E hlen).2 hmiss, hidx, hline,
    Nat.one_shiftLeft, hc, hv', fill_line, fetch]

/-- A read that misses is defined only with the block inside the store. -/
theorem read_byte_miss_inv (c : cache_t) (start : List Nat) (off : Nat)
    (row : List cache_line_t) (r : cache_t × List Nat × Nat)
    (hrow : set_at c (set_of c.s c.b off) = some row) (hlen : row.length = c.E)
    (hmiss : no_hit row (tag_of c.s c.b off)) (h : read_byte c start off = some r) :
    block_in_store c.b start off := by
  obtain ⟨sets, hd, hr⟩ := set_at_some hrow
  unfold read_byte at h
  simp only [hd, hr, (hit_loop_none_iff row _ c.E hlen).2 hmiss] at h
  cases hidx : line_to_insert row c.E with
  | none => simp [hidx] at h
  | some idx =>
    simp only [hidx] at h
    cases hline : row[idx]? with
    | none => simp [hline] at h
    | some line =>
      simp only [hline] at h
      cases hc : copy_loop start (off - block_of c.b off) (1 <<< c.b) 0 line.block with
      | none => simp [hc] at h
      | some blk =>
        rw [Nat.one_shiftLeft] at hc
        exact copy_loop_bound start _ _ _ blk (Nat.two_pow_pos _) hc

/-- A write that hits line `j`. -/
theorem write_byte_hit (c : cache_t) (start : List Nat) (off new_byte : Nat)
    (row : List cache_line_t) (j : Nat) (l : cache_line_t)
    (hrow : set_at c (set_of c.s c.b off) = some row) (hlen : row.length = c.E)
    (hj : first_hit row (tag_of c.s c.b off) j) (hl : row[j]? = some l)
    (hb : block_of c.b off < l.block.length) (ho : off < start.length) :
    write_byte c start off new_byte =
      some (put_line c (set_of c.s c.b off) j
        (bump { l with block := l.block.set (block_of c.b off) new_byte }),
        start.set off new_byte) := by
  obtain ⟨sets, hd, hr⟩ := set_at_some hrow
  rw [put_line_eq hd hr]
  unfold write_byte
  simp only [hd, hr, (hit_loop_some_iff row _ c.E j hlen).2 hj, hl, hb, ho, bump, and_self,
    if_true]

/-- A write that hits is defined only at an address of the store. -/
theorem write_byte_hit_inv (c : cache_t) (start : List Nat) (off new_byte : Nat)
    (row : List cache_line_t) (j : Nat) (r : cache_t × List Nat)
    (hrow : set_at c (set_of c.s c.b off) = some row) (hlen : row.length = c.E)
    (hj : first_hit row (tag_of c.s c.b off) j) (h : write_byte c start off new_byte = some r) :
    off < start.length := by
  obtain ⟨sets, hd, hr⟩ := set_at_some hrow
  unfold write_byte at h
  simp only [hd, hr, (hit_loop_some_iff row _ c.E j hlen).2 hj] at h
  cases hl : row[j]? with
  | none => simp [hl] at h
  | some l =>
    simp only [hl] at h
    by_cases hc : block_of c.b off < l.block.length ∧ off < start.length
    · exact hc.2
    · rw [if_neg hc] at h; cases h

/-- A write that misses, with the block inside the store. -/
theorem write_byte_miss (c : cache_t) (start : List Nat) (off new_byte : Nat)
    (row : List cache_line_t) (idx : Nat) (line : cache_line_t)
    (hrow : set_at c (set_of c.s c.b off) = some row) (hlen : row.length = c.E)
    (hmiss : no_hit row (tag_of c.s c.b off)) (hidx : line_to_insert row c.E = some idx)
    (hline : row[idx]? = some line) (hblk : line.block.length = 2 ^ c.b)
    (hin : block_in_store c.b start off) :
    write_byte c start off new_byte =
      some (put_line c (set_of c.s c.b off) idx
        (fill_line (tag_of c.s c.b off) (fetch c.b (start.set off new_byte) off)),
        start.set off new_byte) := by
  obtain ⟨sets, hd, hr⟩ := set_at_some hrow
  rw [put_line_eq hd hr]
  unfold write_byte
  have hin' : off - block_of c.b off + 2 ^ c.b ≤ (start.set off new_byte).length := by
    rw [List.length_set]; exact hin
  have hc := copy_loop_eq (start.set off new_byte) (off - block_of c.b off) (2 ^ c.b)
    line.block hblk hin'
  simp only [hd, hr, (hit_loop_none_iff row _ c.E hlen).2 hmiss, hidx, hline,
    Nat.one_shiftLeft, hc, fill_line, fetch, block_in_store_lt hin, if_true]

/-- A write that misses is defined only with the block inside the store. -/
theorem write_byte_miss_inv (c : cache_t) (start : List Nat) (off new_byte : Nat)
    (row : List cache_line_t) (r : cache_t × List Nat)
    (hrow : set_at c (set_of c.s c.b off) = some row) (hlen : row.length = c.E)
    (hmiss : no_hit row (tag_of c.s c.b off)) (h : write_byte c start off new_byte = some r) :
    block_in_store c.b start off := by
  obtain ⟨sets, hd, hr⟩ := set_at_some hrow
  unfold write_byte at h
  simp only [hd, hr, (hit_loop_none_iff row _ c.E hlen).2 hmiss] at h
  cases hidx : line_to_insert row c.E with
  | none => simp [hidx] at h
  | some idx =>
    simp only [hidx] at h
    cases hline : row[idx]? with
    | none => simp [hline] at h
    | some line =>
      simp only [hline] at h
      by_cases ho : off < start.length
      · rw [if_pos ho] at h
        cases hc : copy_loop (start.set off new_byte) (off - block_of c.b off) (1 <<< c.b) 0
            line.block with
        | none => simp [hc] at h
        | some blk =>
          rw [Nat.one_shiftLeft] at hc
          have := copy_loop_bound _ _ _ _ blk (Nat.two_pow_pos _) hc
          rw [List.length_set] at this
          exact this
      · rw [if_neg ho] at h; cases h

/-! ### The store -/

theorem read_byte_store (c : cache_t) (start : List Nat) (off : Nat) (c' : cache_t)
    (start' : List Nat) (v : Nat) (h : read_byte c start off = some (c', start', v)) :
    start' = start := by
  unfold read_byte at h
  dsimp only at h
  repeat' split at h
  all_goals (cases h; try rfl)

theorem write_byte_store (c : cache_t) (start : List Nat) (off new_byte : Nat) (c' : cache_t)
    (start' : List Nat) (h : write_byte c start off new_byte = some (c', start')) :
    start' = start.set off new_byte := by
  unfold write_byte at h
  dsimp only at h
  repeat' split at h
  all_goals (cases h; try rfl)

theorem write_byte_lt (c : cache_t) (start : List Nat) (off new_byte : Nat) (c' : cache_t)
    (start' : List Nat) (h : write_byte c start off new_byte = some (c', start')) :
    off < start.length := by
  unfold write_byte at h
  dsimp only at h
  repeat' split at h
  all_goals first
    | (cases h; done)
    | assumption
    | (rename_i hc; exact hc.2)

/-- C3 (backing-store frame).  `read_byte` returns the store it was given, and
`write_byte` returns a store of the same length that differs from the given
one at index `off` at most; this holds for every state and address, whether
the call hits or misses. -/
theorem backing_store_frame (c : cache_t) (start : List Nat) (off new_byte : Nat) :
    (∀ c' start' v, read_byte c start off = some (c', start', v) → start' = start) ∧
    (∀ c' start', write_byte c start off new_byte = some (c', start') →
      start'.length = start.length ∧ ∀ k, k ≠ off → start'[k]? = start[k]?) := by
  refine ⟨fun c' start' v h => read_byte_store c start off c' start' v h, ?_⟩
  intro c' start' h
  rw [write_byte_store c start off new_byte c' start' h]
  refine ⟨List.length_set _ _ _, fun k hk => ?_⟩
  rw [List.getElem?_set_ne (Ne.symm hk)]

/-- Address decomposition for the geometries the `int` expressions hold
(`s ≤ 30`, `b ≤ 30`).  The three fields computed at the top of `read_byte` and
`write_byte` are `A & (2^b - 1)`, `(A >> b) & (2^s - 1)` and `A >> (s + b)`,
that is `A % 2^b`, `A / 2^b % 2^s` and `A / 2^(s+b)`; they rebuild the address,
and the example of the code comment (`s = 6`, `b = 4`) decodes as written
there. -/
theorem address_decomposition (A s b : Nat) (hs : s ≤ 30) (_hb : b ≤ 30) :
    block_of b A = A &&& (2 ^ b - 1) ∧
    set_of s b A = (A >>> b) &&& (2 ^ s - 1) ∧
    tag_of s b A = A >>> (s + b) ∧
    block_of b A = A % 2 ^ b ∧
    set_of s b A = A / 2 ^ b % 2 ^ s ∧
    tag_of s b A = A / 2 ^ (s + b) ∧
    tag_of s b A * 2 ^ (s + b) + set_of s b A * 2 ^ b + block_of b A = A ∧
    tag_of 6 4 0b0101110101011001 = 0b010111 ∧
    set_of 6 4 0b0101110101011001 = 0b010101 ∧
    block_of 4 0b0101110101011001 = 0b1001 := by
  refine ⟨?_, ?_, rfl, block_of_eq b A, set_of_eq s b A hs, tag_of_eq s b A,
    decode_rebuild s b A hs, by decide, by decide, by decide⟩
  · simp only [block_of, Nat.one_shiftLeft]
  · simp only [set_of, int_mask_of_le s hs]

/-- C4 (address decomposition) fails on the code for `s ≥ 31`: the mask
`(1 << cache.s) - 1` is an `int`.  With `s = 32`, `b = 0` and the address 5 the
code decodes set 0, tag 0 and offset 0, where the claim's
`(A >> b) & (2^s - 1)` is 5, and the three fields rebuild 0, not 5. -/
theorem decode_fails_int_shift :
    set_of 32 0 5 = 0 ∧ tag_of 32 0 5 = 0 ∧ block_of 0 5 = 0 ∧
    (5 >>> 0) &&& (2 ^ 32 - 1) = 5 ∧
    tag_of 32 0 5 * 2 ^ (32 + 0) + set_of 32 0 5 * 2 ^ 0 + block_of 0 5 ≠ 5 := by
  decide

/-- C5 (LFU selection).  On a set of `E ≥ 1` lines `find_least_frequent`
returns an index `i < E` whose frequency is at most that of every line and
strictly below that of every line of lower index. -/
theorem lfu_selection (set : List cache_line_t) (E : Nat) (hlen : set.length = E)
    (hE : 1 ≤ E) :
    ∃ i li, find_least_frequent set E = some i ∧ i < E ∧ set[i]? = some li ∧
      (∀ j lj, j < E → set[j]? = some lj → li.frequency ≤ lj.frequency) ∧
      (∀ j lj, j < i → set[j]? = some lj → lj.frequency > li.frequency) := by
  obtain ⟨i, h1, h2, li, h3, h4, h5⟩ := find_least_frequent_spec set E hlen hE
  exact ⟨i, li, h1, h2, h3, fun j lj _ hj => h4 lj (List.getElem?_mem hj),
    fun j lj hj hlj => h5 j hj lj hlj⟩

/-! ### Misses -/

/-- The set of an address in a well-formed cache. -/
theorem well_formed_row (c : cache_t) (h : well_formed c) (off : Nat) (row : List cache_line_t)
    (hrow : set_at c (set_of c.s c.b off) = some row) :
    row.length = c.E ∧ ∀ l ∈ row, l.block.length = 2 ^ c.b := by
  obtain ⟨row', h1, h2, h3⟩ := well_formed_set c h _ (set_of_lt c.s c.b off)
  rw [hrow] at h1
  cases h1
  exact ⟨h2, h3⟩

/-- C6 (empty-line preference).  In a well-formed cache, when the address
misses, its set has an invalid line and its block lies in the store, both
`read_byte` and `write_byte` fill the first invalid line of the set: after the
call that line is valid with the tag of the address, every other line of the
table is as before, and so every line that was valid is unchanged. -/
theorem empty_line_preference (c : cache_t) (start : List Nat) (off new_byte : Nat)
    (row : List cache_line_t) (hwf : well_formed c)
    (hrow : set_at c (set_of c.s c.b off) = some row)
    (hmiss : no_hit row (tag_of c.s c.b off))
    (hempty : ∃ l ∈ row, l.valid = 0)
    (hin : block_in_store c.b start off) :
    ∃ j, first_empty row j ∧
      (∃ c' v l', read_byte c start off = some (c', start, v) ∧
        line_at c' (set_of c.s c.b off) j = some l' ∧ l'.valid = 1 ∧
        l'.tag = tag_of c.s c.b off ∧
        (∀ i k, ¬ (i = set_of c.s c.b off ∧ k = j) → line_at c' i k = line_at c i k) ∧
        (∀ i k l, line_at c i k = some l → l.valid ≠ 0 → line_at c' i k = some l)) ∧
      (∃ c' start' l', write_byte c start off new_byte = some (c', start') ∧
        line_at c' (set_of c.s c.b off) j = some l' ∧ l'.valid = 1 ∧
        l'.tag = tag_of c.s c.b off ∧
        (∀ i k, ¬ (i = set_of c.s c.b off ∧ k = j) → line_at c' i k = line_at c i k) ∧
        (∀ i k l, line_at c i k = some l → l.valid ≠ 0 → line_at c' i k = some l)) := by
  obtain ⟨hlen, hblk⟩ := well_formed_row c hwf off row hrow
  have hj : ∃ j, first_empty row j := by
    rcases empty_or_full row with h | h
    · exact h
    · obtain ⟨l, hl, hv⟩ := hempty
      exact absurd hv (h l hl)
  obtain ⟨j, hj⟩ := hj
  have hidx := line_to_insert_empty row c.E j hlen hj
  obtain ⟨⟨l0, hl0, hv0⟩, _⟩ := id hj
  have hl0' : row[j]? = some l0 := hl0
  have hat : line_at c (set_of c.s c.b off) j = some l0 := by
    rw [line_at_eq c _ j row hrow, hl0']
  have hb0 := hblk l0 (List.getElem?_mem hl0')
  have hframe : ∀ (l' : cache_line_t) (i k : Nat) (l : cache_line_t),
      line_at c i k = some l → l.valid ≠ 0 →
      line_at (put_line c (set_of c.s c.b off) j l') i k = some l := by
    intro l' i k l hl hv
    rw [line_at_put_line_ne, hl]
    rintro ⟨rfl, rfl⟩
    rw [hat] at hl
    cases hl
    exact hv hv0
  obtain ⟨v, hv⟩ : ∃ v, start[off]? = some v :=
    ⟨_, List.getElem?_eq_getElem (block_in_store_lt hin)⟩
  refine ⟨j, hj, ⟨_, v, _, read_byte_miss c start off row j l0 v hrow hlen hmiss hidx hl0' hb0
      hin hv, line_at_put_line_self c _ j _ l0 hat, rfl, rfl,
      fun i k hne => line_at_put_line_ne c _ j _ i k hne, hframe _⟩,
    ⟨_, _, _, write_byte_miss c start off new_byte row j l0 hrow hlen hmiss hidx hl0' hb0 hin,
      line_at_put_line_self c _ j _ l0 hat, rfl, rfl,
      fun i k hne => line_at_put_line_ne c _ j _ i k hne, hframe _⟩⟩

/-- Reading an address whose line has just been put in place hits that line. -/
theorem read_byte_after_put (c : cache_t) (start : List Nat) (off : Nat)
    (row : List cache_line_t) (j : Nat) (l0 L : cache_line_t) (v : Nat)
    (hrow : set_at c (set_of c.s c.b off) = some row) (hlen : row.length = c.E)
    (hl0 : row[j]? = some l0) (hhit : is_hit (tag_of c.s c.b off) L)
    (hlow : ∀ k < j, ∀ l ∈ row[k]?, ¬ is_hit (tag_of c.s c.b off) l)
    (hv : L.block[block_of c.b off]? = some v) :
    set_at (put_line c (set_of c.s c.b off) j L) (set_of c.s c.b off) = some (row.set j L) ∧
    first_hit (row.set j L) (tag_of c.s c.b off) j ∧
    read_byte (put_line c (set_of c.s c.b off) j L) start off =
      some (put_line (put_line c (set_of c.s c.b off) j L) (set_of c.s c.b off) j (bump L),
        start, v) := by
  have hj := getElem?_some_lt hl0
  have hrow' : set_at (put_line c (set_of c.s c.b off) j L) (set_of c.s c.b off) =
      some (row.set j L) := by
    rw [set_at_put_line, if_pos rfl, hrow]; rfl
  have hself : (row.set j L)[j]? = some L := List.getElem?_set_self hj
  have hfirst : first_hit (row.set j L) (tag_of c.s c.b off) j := by
    refine ⟨⟨L, hself, hhit⟩, fun k hk l hl => ?_⟩
    rw [List.getElem?_set_ne (Nat.ne_of_gt hk)] at hl
    exact hlow k hk l hl
  refine ⟨hrow', hfirst, ?_⟩
  have := read_byte_hit (put_line c (set_of c.s c.b off) j L) start off (row.set j L) j L v
    (by simpa only [put_line_s, put_line_b] using hrow')
    (by simpa only [put_line_E, List.length_set] using hlen)
    (by simpa only [put_line_s, put_line_b] using hfirst) hself
    (by simpa only [put_line_b] using hv)
  simpa only [put_line_s, put_line_b] using this

/-- A line put in place twice is the line put last. -/
theorem line_at_put_put (c : cache_t) (i j : Nat) (L L' : cache_line_t) (i' j' : Nat) :
    line_at (put_line (put_line c i j L) i j L') i' j' =
      if i' = i ∧ j' = j then (line_at c i j).map (fun _ => L') else line_at c i' j' := by
  rw [line_at_put_line]
  by_cases h : i' = i ∧ j' = j
  · rw [if_pos h, if_pos h, line_at_put_line, if_pos ⟨rfl, rfl⟩]
    cases line_at c i j <;> rfl
  · rw [if_neg h, if_neg h, line_at_put_line_ne _ _ _ _ _ _ h]

theorem no_hit_getElem? {row : List cache_line_t} {tag : Nat} (h : no_hit row tag) (k : Nat) :
    ∀ l ∈ row[k]?, ¬ is_hit tag l :=
  fun l hl => h l (List.getElem?_mem hl)

/-- C9 (repeated read).  In a well-formed cache a read whose block lies in the
store is defined, and after any defined read a second read of the same address
is defined, returns the same byte, hits, and leaves the valid bit, tag and
block of every line as the first read left them. -/
theorem repeated_read (c : cache_t) (start : List Nat) (off : Nat) (hwf : well_formed c) :
    (block_in_store c.b start off → ∃ c1 v, read_byte c start off = some (c1, start, v)) ∧
    ∀ c1 start1 v, read_byte c start off = some (c1, start1, v) →
      ∃ c2 row1 j, read_byte c1 start1 off = some (c2, start1, v) ∧
        set_at c1 (set_of c.s c.b off) = some row1 ∧
        first_hit row1 (tag_of c.s c.b off) j ∧
        ∀ i k l, line_at c1 i k = some l →
          ∃ l', line_at c2 i k = some l' ∧ l'.valid = l.valid ∧ l'.tag = l.tag ∧
            l'.block = l.block := by
  obtain ⟨row, hrow, hlen, hblk⟩ := well_formed_set c hwf _ (set_of_lt c.s c.b off)
  have hE : 1 ≤ c.E := ((well_formed_iff c).1 hwf).1
  have hframe : ∀ (j : Nat) (l0 L : cache_line_t), row[j]? = some l0 → ∀ i k l,
      line_at (put_line c (set_of c.s c.b off) j L) i k = some l →
      ∃ l', line_at (put_line (put_line c (set_of c.s c.b off) j L) (set_of c.s c.b off) j
          (bump L)) i k = some l' ∧ l'.valid = l.valid ∧ l'.tag = l.tag ∧
        l'.block = l.block := by
    intro j l0 L hl0 i k l hl
    have hat : line_at c (set_of c.s c.b off) j = some l0 := by
      rw [line_at_eq c _ j row hrow, hl0]
    rw [line_at_put_put]
    rw [line_at_put_line] at hl
    by_cases h : i = set_of c.s c.b off ∧ k = j
    · rw [if_pos h, hat] at hl
      cases hl
      rw [if_pos h, hat]
      exact ⟨_, rfl, rfl, rfl, rfl⟩
    · rw [if_neg h] at hl
      rw [if_neg h]
      exact ⟨l, hl, rfl, rfl, rfl⟩
  rcases hit_or_miss row (tag_of c.s c.b off) with ⟨j, hj⟩ | hmiss
  · obtain ⟨⟨l, hl, hh⟩, hlow⟩ := id hj
    have hl' : row[j]? = some l := hl
    have hb : block_of c.b off < l.block.length := by
      rw [hblk l (List.getElem?_mem hl')]; exact block_of_lt _ _
    have hv : l.block[block_of c.b off]? = some l.block[block_of c.b off] :=
      List.getElem?_eq_getElem hb
    have h1 := read_byte_hit c start off row j l _ hrow hlen hj hl' hv
    refine ⟨fun _ => ⟨_, _, h1⟩, ?_⟩
    intro c1 start1 v hr
    rw [h1] at hr
    cases hr
    obtain ⟨a1, a2, a3⟩ := read_byte_after_put c start off row j l (bump l) _ hrow hlen hl'
      hh hlow hv
    exact ⟨_, _, j, a3, a1, a2, hframe j l _ hl'⟩
  · obtain ⟨idx, hidx, hlt, _⟩ := line_to_insert_spec row c.E hlen hE
    have hi : idx < row.length := by omega
    have hl0 : row[idx]? = some row[idx] := List.getElem?_eq_getElem hi
    have hb0 := hblk _ (List.getElem?_mem hl0)
    constructor
    · intro hin
      exact ⟨_, _, read_byte_miss c start off row idx _ _ hrow hlen hmiss hidx hl0 hb0 hin
        (List.getElem?_eq_getElem (block_in_store_lt hin))⟩
    · intro c1 start1 v hr
      have hin := read_byte_miss_inv c start off row _ hrow hlen hmiss hr
      have ho := block_in_store_lt hin
      have hv : start[off]? = some start[off] := List.getElem?_eq_getElem ho
      rw [read_byte_miss c start off row idx _ _ hrow hlen hmiss hidx hl0 hb0 hin hv] at hr
      cases hr
      obtain ⟨a1, a2, a3⟩ := read_byte_after_put c start off row idx _
        (fill_line (tag_of c.s c.b off) (fetch c.b start off)) _ hrow hlen hl0
        ⟨Nat.one_ne_zero, rfl⟩ (fun k _ => no_hit_getElem? hmiss k)
        (by rw [fill_line, getElem?_fetch_self, hv])
      exact ⟨_, _, idx, a3, a1, a2, hframe idx _ _ hl0⟩

/-! ### The freshly initialised cache -/

/-- The line `initialize_cache` sets up (l.54-57). -/
theorem init_lines_ok (B : Nat) : ∀ n k, init_lines (fun _ => true) B n k =
    some (List.replicate n { valid := 0, frequency := 0, tag := 0, block := List.replicate B 0 }) := by
  intro n
  induction n with
  | zero => intro k; rfl
  | succ n ih =>
    intro k
    rw [init_lines, ih (k + 1)]
    rfl

theorem init_sets_ok (B E : Nat) : ∀ n k, init_sets (fun _ => true) B E n k =
    some (List.replicate n (List.replicate E
      { valid := 0, frequency := 0, tag := 0, block := List.replicate B 0 })) := by
  intro n
  induction n with
  | zero => intro k; rfl
  | succ n ih =>
    intro k
    rw [init_sets, init_lines_ok, ih (k + 1 + E)]
    rfl

/-- When every allocation succeeds `initialize_cache` returns the table of
`2 ^ s` sets of `E` invalid zero lines. -/
theorem initialize_cache_ok (s t b E : Nat) :
    initialize_cache (fun _ => true) s t b E =
      { s := s, t := t, b := b, E := E,
        cache := .table (List.replicate (shl_int s).toNat (List.replicate E
          { valid := 0, frequency := 0, tag := 0, block := List.replicate (2 ^ b) 0 })) } := by
  unfold initialize_cache
  simp only [init_sets_ok, Nat.one_shiftLeft, if_true]

theorem shl_int_zero : (shl_int 0).toNat = 1 := by decide

theorem line_at_initialize_cache (s t b E i j : Nat) (l : cache_line_t)
    (h : line_at (initialize_cache (fun _ => true) s t b E) i j = some l) :
    l = { valid := 0, frequency := 0, tag := 0, block := List.replicate (2 ^ b) 0 } := by
  rw [initialize_cache_ok] at h
  simp only [line_at, set_at, deref_table] at h
  rw [List.getElem?_replicate] at h
  by_cases hi : i < (shl_int s).toNat
  · simp only [if_pos hi] at h
    rw [List.getElem?_replicate] at h
    by_cases hj : j < E
    · rw [if_pos hj] at h
      cases h; rfl
    · rw [if_neg hj] at h
      cases h
  · simp only [if_neg hi] at h
    cases h

theorem well_formed_initialize_cache (s t b E : Nat) (hE : 1 ≤ E) (hs : s ≤ 30) :
    well_formed (initialize_cache (fun _ => true) s t b E) := by
  rw [initialize_cache_ok, well_formed_iff]
  refine ⟨hE, _, rfl, by rw [List.length_replicate]; exact shl_int_toNat s hs, ?_⟩
  intro row hrow
  rw [List.eq_of_mem_replicate hrow]
  refine ⟨List.length_replicate _ _, ?_⟩
  intro l hl
  rw [List.eq_of_mem_replicate hl]
  exact List.length_replicate _ _

/-! ### Coherence and absence of duplicates -/

/-- Coherence after a line is put in place, from coherence of the other lines
and of the new line. -/
theorem coherent_put_line (c : cache_t) (start' : List Nat) (i0 j0 : Nat) (L : cache_line_t)
    (hrest : ∀ i j, ¬ (i = i0 ∧ j = j0) → ∀ l ∈ line_at c i j, l.valid ≠ 0 → ∀ k < 2 ^ c.b,
      l.block[k]? = start'[l.tag * 2 ^ (c.s + c.b) + i * 2 ^ c.b + k]?)
    (hL : L.valid ≠ 0 → ∀ k < 2 ^ c.b,
      L.block[k]? = start'[L.tag * 2 ^ (c.s + c.b) + i0 * 2 ^ c.b + k]?) :
    coherent (put_line c i0 j0 L) start' := by
  intro i j l hl hv k hk
  simp only [put_line_s, put_line_b] at hk ⊢
  have hl' : line_at (put_line c i0 j0 L) i j = some l := hl
  rw [line_at_put_line] at hl'
  by_cases h : i = i0 ∧ j = j0
  · rw [if_pos h] at hl'
    cases hc : line_at c i0 j0 with
    | none => rw [hc] at hl'; cases hl'
    | some l0 =>
      rw [hc] at hl'
      cases hl'
      rw [h.1]
      exact hL hv k hk
  · rw [if_neg h] at hl'
    exact hrest i j h l hl' hv k hk

/-- Replacing a line by one with the same valid bit and tag keeps the sets
free of duplicates. -/
theorem no_duplicate_put_same (c : cache_t) (i0 j0 : Nat) (l0 L : cache_line_t)
    (hl0 : line_at c i0 j0 = some l0) (hv : L.valid = l0.valid) (ht : L.tag = l0.tag)
    (h : no_duplicate c) : no_duplicate (put_line c i0 j0 L) := by
  have key : ∀ i j l, line_at (put_line c i0 j0 L) i j = some l →
      ∃ l', line_at c i j = some l' ∧ l'.valid = l.valid ∧ l'.tag = l.tag := by
    intro i j l hl
    rw [line_at_put_line] at hl
    by_cases hc : i = i0 ∧ j = j0
    · rw [if_pos hc, hl0] at hl
      cases hl
      exact ⟨l0, by rw [hc.1, hc.2, hl0], hv.symm, ht.symm⟩
    · rw [if_neg hc] at hl
      exact ⟨l, hl, rfl, rfl⟩
  intro i j j' l hl l' hl' hvl hvl' htag
  obtain ⟨m, hm, e1, e2⟩ := key i j l hl
  obtain ⟨m', hm', e1', e2'⟩ := key i j' l' hl'
  exact h i j j' m hm m' hm' (by rw [e1]; exact hvl) (by rw [e1']; exact hvl')
    (by rw [e2, e2']; exact htag)

/-- Filling a line with a tag that no other line of the set hits on keeps the
sets free of duplicates. -/
theorem no_duplicate_put_fill (c : cache_t) (i0 j0 : Nat) (L : cache_line_t)
    (hmiss : ∀ j l, j ≠ j0 → line_at c i0 j = some l → ¬ is_hit L.tag l)
    (h : no_duplicate c) : no_duplicate (put_line c i0 j0 L) := by
  intro i j j' l hl l' hl' hvl hvl' htag
  have hl1 : line_at (put_line c i0 j0 L) i j = some l := hl
  have hl1' : line_at (put_line c i0 j0 L) i j' = some l' := hl'
  rw [line_at_put_line] at hl1 hl1'
  by_cases hc : i = i0 ∧ j = j0
  · by_cases hc' : i = i0 ∧ j' = j0
    · rw [hc.2, hc'.2]
    · exfalso
      rw [if_pos hc] at hl1
      rw [if_neg hc'] at hl1'
      cases hat : line_at c i0 j0 with
      | none => rw [hat] at hl1; cases hl1
      | some l0 =>
        rw [hat] at hl1
        cases hl1
        rw [hc.1] at hl1'
        exact hmiss j' l' (fun e => hc' ⟨hc.1, e⟩) hl1' ⟨hvl', htag.symm⟩
  · by_cases hc' : i = i0 ∧ j' = j0
    · exfalso
      rw [if_neg hc] at hl1
      rw [if_pos hc'] at hl1'
      cases hat : line_at c i0 j0 with
      | none => rw [hat] at hl1'; cases hl1'
      | some l0 =>
        rw [hat] at hl1'
        cases hl1'
        rw [hc'.1] at hl1
        exact hmiss j l (fun e => hc ⟨hc'.1, e⟩) hl1 ⟨hvl, htag⟩
    · rw [if_neg hc] at hl1
      rw [if_neg hc'] at hl1'
      exact h i j j' l hl1 l' hl1' hvl hvl' htag

/-- The address a valid line stands for decodes to the line's tag and set. -/
theorem line_addr_decode (c : cache_t) (hwf : well_formed c) (hs : c.s ≤ 30) (i j : Nat)
    (l : cache_line_t)
    (hl : line_at c i j = some l) (k : Nat) (hk : k < 2 ^ c.b) (off : Nat)
    (h : l.tag * 2 ^ (c.s + c.b) + i * 2 ^ c.b + k = off) :
    tag_of c.s c.b off = l.tag ∧ set_of c.s c.b off = i ∧ block_of c.b off = k := by
  obtain ⟨hi, _, _⟩ := well_formed_line c hwf i j l hl
  rw [← h]
  exact decode_unique c.s c.b l.tag i k hs hi hk

/-! ### The invariant is kept by every call -/

theorem state_ok_initialize_cache (s t b E : Nat) (hE : 1 ≤ E) (hs : s ≤ 30)
    (start : List Nat) :
    state_ok (initialize_cache (fun _ => true) s t b E) start := by
  refine ⟨well_formed_initialize_cache s t b E hE hs, ?_, ?_⟩
  · intro i j l hl hv
    rw [line_at_initialize_cache s t b E i j l hl] at hv
    exact absurd rfl hv
  · intro i j j' l hl l' hl' hv
    rw [line_at_initialize_cache s t b E i j l hl] at hv
    exact absurd rfl hv

/-- A defined read keeps the invariant, the store and the geometry, and
returns the byte of the store. -/
theorem read_byte_ok (c : cache_t) (start : List Nat) (off : Nat) (c' : cache_t)
    (start' : List Nat) (v : Nat) (hok : state_ok c start) (hs30 : c.s ≤ 30)
    (h : read_byte c start off = some (c', start', v)) :
    state_ok c' start' ∧ start' = start ∧ start[off]? = some v ∧
      c'.s = c.s ∧ c'.t = c.t ∧ c'.b = c.b ∧ c'.E = c.E := by
  obtain ⟨hwf, hcoh, hdup⟩ := hok
  obtain ⟨row, hrow, hlen, hblk⟩ := well_formed_set c hwf _ (set_of_lt c.s c.b off)
  have hE : 1 ≤ c.E := ((well_formed_iff c).1 hwf).1
  rcases hit_or_miss row (tag_of c.s c.b off) with ⟨j, hj⟩ | hmiss
  · obtain ⟨⟨l, hl, hh⟩, hlow⟩ := id hj
    have hl' : row[j]? = some l := hl
    have hat : line_at c (set_of c.s c.b off) j = some l := by
      rw [line_at_eq c _ j row hrow, hl']
    have hbl := hblk l (List.getElem?_mem hl')
    have hb : block_of c.b off < l.block.length := by
      rw [hbl]; exact block_of_lt _ _
    have hv : l.block[block_of c.b off]? = some l.block[block_of c.b off] :=
      List.getElem?_eq_getElem hb
    rw [read_byte_hit c start off row j l _ hrow hlen hj hl' hv] at h
    cases h
    refine ⟨⟨well_formed_put_line c hwf _ _ _ hbl, ?_, ?_⟩, rfl, ?_, by simp⟩
    · refine coherent_put_line c start _ j _ (fun i k _ l' hl' => hcoh i k l' hl') ?_
      intro hv' k hk
      exact hcoh _ j l hat hh.1 k hk
    · exact no_duplicate_put_same c _ j l _ hat rfl rfl hdup
    · rw [← hv, hcoh _ j l hat hh.1 _ (block_of_lt _ _), hh.2]
      have := decode_rebuild c.s c.b off hs30
      rw [this]
  · obtain ⟨idx, hidx, hlt, _⟩ := line_to_insert_spec row c.E hlen hE
    have hi : idx < row.length := by omega
    have hl0 : row[idx]? = some row[idx] := List.getElem?_eq_getElem hi
    have hb0 := hblk _ (List.getElem?_mem hl0)
    have hin := read_byte_miss_inv c start off row _ hrow hlen hmiss h
    have ho := block_in_store_lt hin
    have hv : start[off]? = some start[off] := List.getElem?_eq_getElem ho
    rw [read_byte_miss c start off row idx _ _ hrow hlen hmiss hidx hl0 hb0 hin hv] at h
    cases h
    refine ⟨⟨well_formed_put_line c hwf _ _ _ (length_fetch hin), ?_, ?_⟩, rfl, hv, by simp⟩
    · refine coherent_put_line c start _ idx _ (fun i k _ l' hl' => hcoh i k l' hl') ?_
      intro _ k hk
      show (fetch c.b start off)[k]? = _
      rw [getElem?_fetch c.b start off k hk, block_base c.s c.b off hs30]
      rfl
    · refine no_duplicate_put_fill c _ idx _ ?_ hdup
      intro j l _ hl
      rw [line_at_eq c _ j row hrow] at hl
      exact hmiss l (List.getElem?_mem hl)

/-- A defined write keeps the invariant and the geometry. -/
theorem write_byte_ok (c : cache_t) (start : List Nat) (off new_byte : Nat) (c' : cache_t)
    (start' : List Nat) (hok : state_ok c start) (hs30 : c.s ≤ 30)
    (h : write_byte c start off new_byte = some (c', start')) :
    state_ok c' start' ∧ c'.s = c.s ∧ c'.t = c.t ∧ c'.b = c.b ∧ c'.E = c.E := by
  obtain ⟨hwf, hcoh, hdup⟩ := hok
  obtain ⟨row, hrow, hlen, hblk⟩ := well_formed_set c hwf _ (set_of_lt c.s c.b off)
  have hE : 1 ≤ c.E := ((well_formed_iff c).1 hwf).1
  have hreb := decode_rebuild c.s c.b off hs30
  rcases hit_or_miss row (tag_of c.s c.b off) with ⟨j, hj⟩ | hmiss
  · obtain ⟨⟨l, hl, hh⟩, hlow⟩ := id hj
    have hl' : row[j]? = some l := hl
    have hat : line_at c (set_of c.s c.b off) j = some l := by
      rw [line_at_eq c _ j row hrow, hl']
    have hbl := hblk l (List.getElem?_mem hl')
    have hb : block_of c.b off < l.block.length := by
      rw [hbl]; exact block_of_lt _ _
    have ho := write_byte_hit_inv c start off new_byte row j _ hrow hlen hj h
    rw [write_byte_hit c start off new_byte row j l hrow hlen hj hl' hb ho] at h
    cases h
    refine ⟨⟨well_formed_put_line c hwf _ _ _ ?_, ?_, ?_⟩, by simp⟩
    · show (l.block.set (block_of c.b off) new_byte).length = 2 ^ c.b
      rw [List.length_set]; exact hbl
    · refine coherent_put_line c _ _ j _ ?_ ?_
      · intro i k hne l' hl' hv' q hq
        rw [hcoh i k l' hl' hv' q hq]
        by_cases e : l'.tag * 2 ^ (c.s + c.b) + i * 2 ^ c.b + q = off
        · exfalso
          obtain ⟨e1, e2, _⟩ := line_addr_decode c hwf hs30 i k l' hl' q hq off e
          subst e2
          exact hne ⟨rfl, hdup _ k j l' hl' l hat hv' hh.1 (by rw [← e1, hh.2])⟩
        · rw [List.getElem?_set_ne (Ne.symm e)]
      · intro _ q hq
        show (l.block.set (block_of c.b off) new_byte)[q]? =
          (start.set off new_byte)[l.tag * 2 ^ (c.s + c.b) + _ * 2 ^ c.b + q]?
        by_cases e : q = block_of c.b off
        · subst e
          rw [List.getElem?_set_self hb, hh.2, hreb, List.getElem?_set_self ho]
        · rw [List.getElem?_set_ne (Ne.symm e), hcoh _ j l hat hh.1 q hq, hh.2,
            List.getElem?_set_ne]
          omega
    · exact no_duplicate_put_same c _ j l _ hat rfl rfl hdup
  · obtain ⟨idx, hidx, hlt, _⟩ := line_to_insert_spec row c.E hlen hE
    have hi : idx < row.length := by omega
    have hl0 : row[idx]? = some row[idx] := List.getElem?_eq_getElem hi
    have hb0 := hblk _ (List.getElem?_mem hl0)
    have hin := write_byte_miss_inv c start off new_byte row _ hrow hlen hmiss h
    have ho := block_in_store_lt hin
    have hin' : block_in_store c.b (start.set off new_byte) off := by
      unfold block_in_store at hin ⊢
      rw [List.length_set]; exact hin
    rw [write_byte_miss c start off new_byte row idx _ hrow hlen hmiss hidx hl0 hb0 hin] at h
    cases h
    refine ⟨⟨well_formed_put_line c hwf _ _ _ (length_fetch hin'), ?_, ?_⟩, by simp⟩
    · refine coherent_put_line c _ _ idx _ ?_ ?_
      · intro i k hne l' hl' hv' q hq
        rw [hcoh i k l' hl' hv' q hq]
        by_cases e : l'.tag * 2 ^ (c.s + c.b) + i * 2 ^ c.b + q = off
        · exfalso
          obtain ⟨e1, e2, _⟩ := line_addr_decode c hwf hs30 i k l' hl' q hq off e
          subst e2
          rw [line_at_eq c _ k row hrow] at hl'
          exact hmiss l' (List.getElem?_mem hl') ⟨hv', e1.symm⟩
        · rw [List.getElem?_set_ne (Ne.symm e)]
      · intro _ k hk
        show (fetch c.b (start.set off new_byte) off)[k]? = _
        rw [getElem?_fetch c.b _ off k hk, block_base c.s c.b off hs30]
        rfl
    · refine no_duplicate_put_fill c _ idx _ ?_ hdup
      intro j l _ hl
      rw [line_at_eq c _ j row hrow] at hl
      exact hmiss l (List.getElem?_mem hl)

/-! ### Reachable states -/

/-- In a well-formed cache a read whose block lies in the store is defined. -/
theorem read_byte_defined (c : cache_t) (start : List Nat) (off : Nat) (hwf : well_formed c)
    (hin : block_in_store c.b start off) :
    ∃ c' v, read_byte c start off = some (c', start, v) := by
  obtain ⟨row, hrow, hlen, hblk⟩ := well_formed_set c hwf _ (set_of_lt c.s c.b off)
  have hE : 1 ≤ c.E := ((well_formed_iff c).1 hwf).1
  rcases hit_or_miss row (tag_of c.s c.b off) with ⟨j, hj⟩ | hmiss
  · obtain ⟨⟨l, hl, hh⟩, hlow⟩ := id hj
    have hl' : row[j]? = some l := hl
    have hb : block_of c.b off < l.block.length := by
      rw [hblk l (List.getElem?_mem hl')]; exact block_of_lt _ _
    exact ⟨_, _, read_byte_hit c start off row j l _ hrow hlen hj hl'
      (List.getElem?_eq_getElem hb)⟩
  · obtain ⟨idx, hidx, hlt, _⟩ := line_to_insert_spec row c.E hlen hE
    have hi : idx < row.length := by omega
    have hl0 : row[idx]? = some row[idx] := List.getElem?_eq_getElem hi
    exact ⟨_, _, read_byte_miss c start off row idx _ _ hrow hlen hmiss hidx hl0
      (hblk _ (List.getElem?_mem hl0)) hin (List.getElem?_eq_getElem (block_in_store_lt hin))⟩

/-- A defined sequence of calls keeps the invariant and the geometry. -/
theorem run_ok : ∀ (calls : List call) (c : cache_t) (start : List Nat) (c' : cache_t)
    (start' : List Nat), state_ok c start → c.s ≤ 30 →
    run calls c start = some (c', start') →
    state_ok c' start' ∧ c'.s = c.s ∧ c'.t = c.t ∧ c'.b = c.b ∧ c'.E = c.E := by
  intro calls
  induction calls with
  | nil =>
    intro c start c' start' hok _ h
    simp only [run, Option.some.injEq, Prod.mk.injEq] at h
    obtain ⟨rfl, rfl⟩ := h
    exact ⟨hok, rfl, rfl, rfl, rfl⟩
  | cons k ks ih =>
    intro c start c' start' hok hs30 h
    rw [run] at h
    cases hs : step c start k with
    | none => simp [hs] at h
    | some r =>
      obtain ⟨c1, start1⟩ := r
      simp only [hs] at h
      have h1 : state_ok c1 start1 ∧ c1.s = c.s ∧ c1.t = c.t ∧ c1.b = c.b ∧ c1.E = c.E := by
        cases k with
        | read off =>
          simp only [step] at hs
          cases hr : read_byte c start off with
          | none => simp [hr] at hs
          | some r =>
            obtain ⟨c2, start2, v⟩ := r
            simp only [hr, Option.some.injEq, Prod.mk.injEq] at hs
            obtain ⟨rfl, rfl⟩ := hs
            obtain ⟨a, _, _, b⟩ := read_byte_ok c start off _ _ v hok hs30 hr
            exact ⟨a, b⟩
        | write off new_byte =>
          simp only [step] at hs
          exact write_byte_ok c start off new_byte _ _ hok hs30 hs
      obtain ⟨a, e1, e2, e3, e4⟩ := ih c1 start1 c' start' h1.1 (by rw [h1.2.1]; exact hs30) h
      obtain ⟨_, f1, f2, f3, f4⟩ := h1
      exact ⟨a, by rw [e1, f1], by rw [e2, f2], by rw [e3, f3], by rw [e4, f4]⟩

/-- Cache transparency of `read_byte` for the geometries the `int` expressions
hold (`s ≤ 30`, `b ≤ 30`) with `E ≥ 1`.  Take any store and any state reached
from the freshly initialised cache by a finite sequence of defined `read_byte`
and `write_byte` calls.  A read whose block lies in the store is defined, and
every defined read leaves the store as it is and returns the byte the store
holds at the address. -/
theorem read_transparent (s t b E : Nat) (hE : 1 ≤ E) (hs : s ≤ 30) (_hb : b ≤ 30)
    (start0 : List Nat) (calls : List call) (c : cache_t) (start : List Nat)
    (hrun : run calls (initialize_cache (fun _ => true) s t b E) start0 = some (c, start))
    (off : Nat) :
    (block_in_store b start off → ∃ c' v, read_byte c start off = some (c', start, v)) ∧
    ∀ c' start' v, read_byte c start off = some (c', start', v) →
      start' = start ∧ start[off]? = some v := by
  have hs0 : (initialize_cache (fun _ => true) s t b E).s ≤ 30 := by
    rw [initialize_cache_ok]; exact hs
  obtain ⟨hok, hs1, _, hb, _⟩ := run_ok calls _ start0 c start
    (state_ok_initialize_cache s t b E hE hs start0) hs0 hrun
  have hb' : c.b = b := by rw [hb, initialize_cache_ok]
  constructor
  · intro hin
    exact read_byte_defined c start off hok.1 (by rw [hb']; exact hin)
  · intro c' start' v h
    obtain ⟨_, a, b, _⟩ := read_byte_ok c start off c' start' v hok (by rw [hs1]; exact hs0) h
    exact ⟨a, b⟩

/-- C1 (cache transparency of `read_byte`) fails on the code for `s ≥ 31`:
`1 << s` is an `int`.  With `s = 32`, `b = 0`, `E = 1` and the store
`[10, .., 17]`, `initialize_cache` builds one set and the mask is 0; `read(5)`
fills the line with tag `5 >> 32 = 0` and the block `[15]`; `read(6)` decodes
set 0 and tag 0, hits, and returns 15 while the store holds 16 at address 6. -/
theorem transparency_fails_int_shift :
    initialize_cache (fun _ => true) 32 0 0 1 =
      { s := 32, t := 0, b := 0, E := 1, cache := .table [[⟨0, 0, 0, [0]⟩]] } ∧
    run [.read 5] (initialize_cache (fun _ => true) 32 0 0 1)
        [10, 11, 12, 13, 14, 15, 16, 17] =
      some ({ s := 32, t := 0, b := 0, E := 1, cache := .table [[⟨1, 1, 0, [15]⟩]] },
            [10, 11, 12, 13, 14, 15, 16, 17]) ∧
    block_in_store 0 [10, 11, 12, 13, 14, 15, 16, 17] 6 ∧
    read_byte { s := 32, t := 0, b := 0, E := 1, cache := .table [[⟨1, 1, 0, [15]⟩]] }
        [10, 11, 12, 13, 14, 15, 16, 17] 6 =
      some ({ s := 32, t := 0, b := 0, E := 1, cache := .table [[⟨1, 2, 0, [15]⟩]] },
            [10, 11, 12, 13, 14, 15, 16, 17], 15) ∧
    [10, 11, 12, 13, 14, 15, 16, 17][6]? = some 16 := by
  decide

/-! ### Caches with a single set -/

theorem set_of_zero (b off : Nat) : set_of 0 b off = 0 := by
  have := set_of_lt 0 b off
  omega

/-- A miss in a cache with one set. -/
theorem read_byte_one_set_miss (t b E : Nat) (row : List cache_line_t) (start : List Nat)
    (off idx : Nat) (line : cache_line_t) (hlen : row.length = E)
    (hmiss : no_hit row (tag_of 0 b off)) (hidx : line_to_insert row E = some idx)
    (hline : row[idx]? = some line) (hblk : line.block.length = 2 ^ b)
    (hin : block_in_store b start off) :
    read_byte { s := 0, t := t, b := b, E := E, cache := .table [row] } start off =
      some ({ s := 0, t := t, b := b, E := E,
              cache := .table [row.set idx (fill_line (tag_of 0 b off) (fetch b start off))] },
            start, start.getD off 0) := by
  have hv : start[off]? = some (start.getD off 0) := by
    have := block_in_store_lt hin
    rw [List.getD_eq_getElem?_getD, List.getElem?_eq_getElem this]
    rfl
  have hrow : set_at { s := 0, t := t, b := b, E := E, cache := .table [row] }
      (set_of 0 b off) = some row := by
    rw [set_of_zero]; rfl
  have := read_byte_miss { s := 0, t := t, b := b, E := E, cache := .table [row] } start off
    row idx line _ hrow hlen hmiss hidx hline hblk hin hv
  rw [this]
  have hp := @put_line_eq { s := 0, t := t, b := b, E := E, cache := .table [row] }
    (set_of 0 b off) [row] row rfl (by rw [set_of_zero]; rfl) idx
    (fill_line (tag_of 0 b off) (fetch b start off))
  simp only [set_of_zero] at hp ⊢
  rw [hp]
  rfl

/-- A hit in a cache with one set. -/
theorem read_byte_one_set_hit (t b E : Nat) (row : List cache_line_t) (start : List Nat)
    (off j : Nat) (l : cache_line_t) (v : Nat) (hlen : row.length = E)
    (hj : first_hit row (tag_of 0 b off) j) (hl : row[j]? = some l)
    (hv : l.block[block_of b off]? = some v) :
    read_byte { s := 0, t := t, b := b, E := E, cache := .table [row] } start off =
      some ({ s := 0, t := t, b := b, E := E, cache := .table [row.set j (bump l)] },
            start, v) := by
  have hrow : set_at { s := 0, t := t, b := b, E := E, cache := .table [row] }
      (set_of 0 b off) = some row := by
    rw [set_of_zero]; rfl
  have := read_byte_hit { s := 0, t := t, b := b, E := E, cache := .table [row] } start off
    row j l v hrow hlen hj hl hv
  rw [this]
  have hp := @put_line_eq { s := 0, t := t, b := b, E := E, cache := .table [row] }
    (set_of 0 b off) [row] row rfl (by rw [set_of_zero]; rfl) j (bump l)
  simp only [set_of_zero] at hp ⊢
  rw [hp]
  rfl

set_option maxRecDepth 100000 in
/-- C8 (frequency counting on a hit) fails on the code: the counter is a
`uchar`.  After the fill and 254 hits the single line of a one-line cache has
frequency 255; the next read of the same address hits that line and leaves it
with frequency 0, not 256. -/
theorem hit_frequency_wraps :
    run (List.replicate 255 (call.read 0)) (initialize_cache (fun _ => true) 0 0 0 1) [7] =
      some ({ s := 0, t := 0, b := 0, E := 1,
              cache := .table [[{ valid := 1, frequency := 255, tag := 0, block := [7] }]] }, [7]) ∧
    first_hit [{ valid := 1, frequency := 255, tag := 0, block := [7] }] (tag_of 0 0 0) 0 ∧
    read_byte { s := 0, t := 0, b := 0, E := 1,
                cache := .table [[{ valid := 1, frequency := 255, tag := 0, block := [7] }]] }
        [7] 0 =
      some ({ s := 0, t := 0, b := 0, E := 1,
              cache := .table [[{ valid := 1, frequency := 0, tag := 0, block := [7] }]] },
            [7], 7) := by
  refine ⟨by decide, by decide, by decide⟩

/-! ### The theorems at concrete inputs -/

/-- The transparency theorem on the store `[10, .., 80]` with 4-byte blocks, after a
read, a write and a read. -/
theorem read_transparent_witness :
    1 ≤ 1 ∧ 0 ≤ 30 ∧ 2 ≤ 30 ∧
    run [.read 0, .write 5 99, .read 4] (initialize_cache (fun _ => true) 0 0 2 1)
        [10, 20, 30, 40, 50, 60, 70, 80] =
      some ({ s := 0, t := 0, b := 2, E := 1,
              cache := .table [[⟨1, 2, 1, [50, 99, 70, 80]⟩]] },
            [10, 20, 30, 40, 50, 99, 70, 80]) ∧
    ((block_in_store 2 [10, 20, 30, 40, 50, 99, 70, 80] 5 →
        ∃ c' v, read_byte { s := 0, t := 0, b := 2, E := 1,
                            cache := .table [[⟨1, 2, 1, [50, 99, 70, 80]⟩]] }
          [10, 20, 30, 40, 50, 99, 70, 80] 5 = some (c', [10, 20, 30, 40, 50, 99, 70, 80], v)) ∧
      ∀ c' start' v, read_byte { s := 0, t := 0, b := 2, E := 1,
                                 cache := .table [[⟨1, 2, 1, [50, 99, 70, 80]⟩]] }
          [10, 20, 30, 40, 50, 99, 70, 80] 5 = some (c', start', v) →
        start' = [10, 20, 30, 40, 50, 99, 70, 80] ∧
        [10, 20, 30, 40, 50, 99, 70, 80][5]? = some v) :=
  ⟨by decide, by decide, by decide, by decide,
    read_transparent 0 0 2 1 (by decide) (by decide) (by decide)
      [10, 20, 30, 40, 50, 60, 70, 80] [.read 0, .write 5 99, .read 4] _ _ (by decide) 5⟩

/-- The selection theorem on three lines with frequencies 3, 1, 1. -/
theorem lfu_selection_witness :
    ([⟨1, 3, 0, []⟩, ⟨1, 1, 1, []⟩, ⟨1, 1, 2, []⟩] : List cache_line_t).length = 3 ∧ 1 ≤ 3 ∧
    ∃ i li, find_least_frequent [⟨1, 3, 0, []⟩, ⟨1, 1, 1, []⟩, ⟨1, 1, 2, []⟩] 3 = some i ∧
      i < 3 ∧
      ([⟨1, 3, 0, []⟩, ⟨1, 1, 1, []⟩, ⟨1, 1, 2, []⟩] : List cache_line_t)[i]? = some li ∧
      (∀ j lj, j < 3 →
        ([⟨1, 3, 0, []⟩, ⟨1, 1, 1, []⟩, ⟨1, 1, 2, []⟩] : List cache_line_t)[j]? = some lj →
        li.frequency ≤ lj.frequency) ∧
      (∀ j lj, j < i →
        ([⟨1, 3, 0, []⟩, ⟨1, 1, 1, []⟩, ⟨1, 1, 2, []⟩] : List cache_line_t)[j]? = some lj →
        lj.frequency > li.frequency) :=
  ⟨by decide, by decide,
    lfu_selection [⟨1, 3, 0, []⟩, ⟨1, 1, 1, []⟩, ⟨1, 1, 2, []⟩] 3 (by decide) (by decide)⟩

/-- The empty-line theorem on a set with one valid and one invalid line: the valid
line is kept. -/
theorem empty_line_preference_witness :
    well_formed { s := 0, t := 0, b := 1, E := 2,
                  cache := .table [[⟨1, 4, 0, [1, 2]⟩, ⟨0, 0, 0, [0, 0]⟩]] } ∧
    no_hit [⟨1, 4, 0, [1, 2]⟩, ⟨0, 0, 0, [0, 0]⟩] (tag_of 0 1 3) ∧
    block_in_store 1 [1, 2, 3, 4] 3 ∧
    ∃ j, first_empty [⟨1, 4, 0, [1, 2]⟩, ⟨0, 0, 0, [0, 0]⟩] j ∧
      ∃ c' v, read_byte { s := 0, t := 0, b := 1, E := 2,
                          cache := .table [[⟨1, 4, 0, [1, 2]⟩, ⟨0, 0, 0, [0, 0]⟩]] }
          [1, 2, 3, 4] 3 = some (c', [1, 2, 3, 4], v) ∧
        line_at c' 0 0 = some ⟨1, 4, 0, [1, 2]⟩ :=
  ⟨by decide, by decide, by decide,
    match empty_line_preference
      { s := 0, t := 0, b := 1, E := 2,
        cache := .table [[⟨1, 4, 0, [1, 2]⟩, ⟨0, 0, 0, [0, 0]⟩]] }
      [1, 2, 3, 4] 3 0 [⟨1, 4, 0, [1, 2]⟩, ⟨0, 0, 0, [0, 0]⟩] (by decide) (by decide)
      (by decide) ⟨⟨0, 0, 0, [0, 0]⟩, by decide, rfl⟩ (by decide) with
    | ⟨j, hj, ⟨c', v, _, hr, _, _, _, _, hkeep⟩, _⟩ =>
      ⟨j, hj, c', v, hr, hkeep 0 0 ⟨1, 4, 0, [1, 2]⟩ (by decide) (by decide)⟩⟩

/-- The repeated-read theorem on a miss: both reads return the same byte. -/
theorem repeated_read_witness :
    well_formed { s := 0, t := 0, b := 1, E := 2,
                  cache := .table [[⟨1, 4, 0, [1, 2]⟩, ⟨0, 0, 0, [0, 0]⟩]] } ∧
    block_in_store 1 [1, 2, 3, 4] 3 ∧
    ∃ c1 v, read_byte { s := 0, t := 0, b := 1, E := 2,
                        cache := .table [[⟨1, 4, 0, [1, 2]⟩, ⟨0, 0, 0, [0, 0]⟩]] }
        [1, 2, 3, 4] 3 = some (c1, [1, 2, 3, 4], v) ∧
      ∃ c2, read_byte c1 [1, 2, 3, 4] 3 = some (c2, [1, 2, 3, 4], v) :=
  ⟨by decide, by decide,
    match repeated_read
      { s := 0, t := 0, b := 1, E := 2,
        cache := .table [[⟨1, 4, 0, [1, 2]⟩, ⟨0, 0, 0, [0, 0]⟩]] }
      [1, 2, 3, 4] 3 (by decide) with
    | ⟨h1, h2⟩ =>
      match h1 (by decide) with
      | ⟨c1, v, hr⟩ =>
        match h2 c1 _ v hr with
        | ⟨c2, _, _, hr2, _⟩ => ⟨c1, v, hr, c2, hr2⟩⟩

/-- A write hit in a cache with one set. -/
theorem write_byte_one_set_hit (t b E : Nat) (row : List cache_line_t) (start : List Nat)
    (off new_byte j : Nat) (l : cache_line_t) (hlen : row.length = E)
    (hj : first_hit row (tag_of 0 b off) j) (hl : row[j]? = some l)
    (hb : block_of b off < l.block.length) (ho : off < start.length) :
    write_byte { s := 0, t := t, b := b, E := E, cache := .table [row] } start off new_byte =
      some ({ s := 0, t := t, b := b, E := E,
              cache := .table [row.set j
                (bump { l with block := l.block.set (block_of b off) new_byte })] },
            start.set off new_byte) := by
  have hrow : set_at { s := 0, t := t, b := b, E := E, cache := .table [row] }
      (set_of 0 b off) = some row := by
    rw [set_of_zero]; rfl
  have := write_byte_hit { s := 0, t := t, b := b, E := E, cache := .table [row] } start off
    new_byte row j l hrow hlen hj hl hb ho
  rw [this]
  have hp := @put_line_eq { s := 0, t := t, b := b, E := E, cache := .table [row] }
    (set_of 0 b off) [row] row rfl (by rw [set_of_zero]; rfl) j
    (bump { l with block := l.block.set (block_of b off) new_byte })
  simp only [set_of_zero] at hp ⊢
  rw [hp]
  rfl

/-- C11 (worked example).  One set, one line, 4-byte blocks, store
`[10, 20, 30, 40, 50, 60, 70, 80]`, freshly initialised cache: `read(0)` misses,
fills `[10, 20, 30, 40]` and returns 10; `read(1)` hits, returns 20 and leaves
frequency 2; `read(4)` misses, refills the line with the tag of address 4,
`[50, 60, 70, 80]` and frequency 1, and returns 50; `write(5, 99)` hits, the
store becomes `[10, 20, 30, 40, 50, 99, 70, 80]` and the block `[50, 99, 70, 80]`. -/
theorem worked_example (t : Nat) :
    no_hit [zero_line 2] (tag_of 0 2 0) ∧
    read_byte (initialize_cache (fun _ => true) 0 t 2 1) [10, 20, 30, 40, 50, 60, 70, 80] 0 =
      some ({ s := 0, t := t, b := 2, E := 1,
              cache := .table [[⟨1, 1, 0, [10, 20, 30, 40]⟩]] },
            [10, 20, 30, 40, 50, 60, 70, 80], 10) ∧
    first_hit [⟨1, 1, 0, [10, 20, 30, 40]⟩] (tag_of 0 2 1) 0 ∧
    read_byte { s := 0, t := t, b := 2, E := 1,
                cache := .table [[⟨1, 1, 0, [10, 20, 30, 40]⟩]] }
        [10, 20, 30, 40, 50, 60, 70, 80] 1 =
      some ({ s := 0, t := t, b := 2, E := 1,
              cache := .table [[⟨1, 2, 0, [10, 20, 30, 40]⟩]] },
            [10, 20, 30, 40, 50, 60, 70, 80], 20) ∧
    no_hit [⟨1, 2, 0, [10, 20, 30, 40]⟩] (tag_of 0 2 4) ∧
    read_byte { s := 0, t := t, b := 2, E := 1,
                cache := .table [[⟨1, 2, 0, [10, 20, 30, 40]⟩]] }
        [10, 20, 30, 40, 50, 60, 70, 80] 4 =
      some ({ s := 0, t := t, b := 2, E := 1,
              cache := .table [[⟨1, 1, tag_of 0 2 4, [50, 60, 70, 80]⟩]] },
            [10, 20, 30, 40, 50, 60, 70, 80], 50) ∧
    first_hit [⟨1, 1, tag_of 0 2 4, [50, 60, 70, 80]⟩] (tag_of 0 2 5) 0 ∧
    write_byte { s := 0, t := t, b := 2, E := 1,
                 cache := .table [[⟨1, 1, tag_of 0 2 4, [50, 60, 70, 80]⟩]] }
        [10, 20, 30, 40, 50, 60, 70, 80] 5 99 =
      some ({ s := 0, t := t, b := 2, E := 1,
              cache := .table [[⟨1, 2, tag_of 0 2 4, [50, 99, 70, 80]⟩]] },
            [10, 20, 30, 40, 50, 99, 70, 80]) := by
  refine ⟨by decide, ?_, by decide, ?_, by decide, ?_, by decide, ?_⟩
  · rw [initialize_cache_ok]
    exact read_byte_one_set_miss t 2 1 [zero_line 2] [10, 20, 30, 40, 50, 60, 70, 80] 0 0
      (zero_line 2) (by decide) (by decide) (by decide) (by decide) (by decide) (by decide)
  · exact read_byte_one_set_hit t 2 1 [⟨1, 1, 0, [10, 20, 30, 40]⟩]
      [10, 20, 30, 40, 50, 60, 70, 80] 1 0 ⟨1, 1, 0, [10, 20, 30, 40]⟩ 20 (by decide)
      (by decide) (by decide) (by decide)
  · exact read_byte_one_set_miss t 2 1 [⟨1, 2, 0, [10, 20, 30, 40]⟩]
      [10, 20, 30, 40, 50, 60, 70, 80] 4 0 ⟨1, 2, 0, [10, 20, 30, 40]⟩ (by decide) (by decide)
      (by decide) (by decide) (by decide) (by decide)
  · exact write_byte_one_set_hit t 2 1 [⟨1, 1, tag_of 0 2 4, [50, 60, 70, 80]⟩]
      [10, 20, 30, 40, 50, 60, 70, 80] 5 99 0 ⟨1, 1, tag_of 0 2 4, [50, 60, 70, 80]⟩ (by decide)
      (by decide) (by decide) (by decide) (by decide)

/-! ### Construction -/

/-- Construction for the geometries the `int` expressions hold (`s ≤ 30`,
`b ≤ 30`).  When every allocation succeeds `initialize_cache` records `s`,
`t`, `b`, `E` as given and returns a live table of exactly `2 ^ s` sets, each
of exactly `E` lines, each line with `valid = 0`, `frequency = 0`, `tag = 0`
and a block of exactly `2 ^ b` bytes, all zero; for `s = 0` the table is one
set of `E` lines. -/
theorem construction (ok : Nat → Bool) (s t b E : Nat) (hs : s ≤ 30) (_hb : b ≤ 30)
    (hok : ∀ k, ok k = true) :
    ∃ sets, initialize_cache ok s t b E =
        { s := s, t := t, b := b, E := E, cache := .table sets } ∧
      sets.length = 2 ^ s ∧
      (∀ row ∈ sets, row.length = E ∧
        ∀ l ∈ row, l.valid = 0 ∧ l.frequency = 0 ∧ l.tag = 0 ∧ l.block.length = 2 ^ b ∧
          ∀ x ∈ l.block, x = 0) ∧
      (s = 0 → ∃ row, sets = [row] ∧ row.length = E) := by
  have e : ok = fun _ => true := funext hok
  subst e
  refine ⟨_, initialize_cache_ok s t b E,
    by rw [List.length_replicate]; exact shl_int_toNat s hs, ?_, ?_⟩
  · intro row hrow
    rw [List.eq_of_mem_replicate hrow]
    refine ⟨List.length_replicate _ _, ?_⟩
    intro l hl
    rw [List.eq_of_mem_replicate hl]
    exact ⟨rfl, rfl, rfl, List.length_replicate _ _, fun x hx => List.eq_of_mem_replicate hx⟩
  · intro hs0
    subst hs0
    rw [shl_int_zero]
    exact ⟨_, rfl, List.length_replicate _ _⟩

/-- C12 (construction) fails on the code for `s ≥ 31`: `int S = 1 << s` does
not hold `2 ^ s`.  With `s = 32`, `b = 0`, `E = 1` and every allocation
succeeding, `initialize_cache` records `s = 32` and returns a table of one set,
not of `2 ^ 32` sets. -/
theorem construction_fails_int_shift :
    shl_int 32 = 1 ∧
    initialize_cache (fun _ => true) 32 0 0 1 =
      { s := 32, t := 0, b := 0, E := 1, cache := .table [[⟨0, 0, 0, [0]⟩]] } ∧
    ([[⟨0, 0, 0, [0]⟩]] : List (List cache_line_t)).length = 1 ∧
    ([[⟨0, 0, 0, [0]⟩]] : List (List cache_line_t)).length ≠ 2 ^ 32 := by
  decide

/-- A failure after the first `malloc` looks, to the caller, like the
successful construction of the geometry `(0, t, b, E)`. -/
theorem observe_late_failure (ok : Nat → Bool) (s t b E : Nat) (h0 : ok 0 = true)
    (hfail : init_sets ok (1 <<< b) E (shl_int s).toNat 1 = none) :
    (initialize_cache ok s t b E).cache = table_ptr.freed ∧
    observe (initialize_cache ok s t b E) =
      observe (initialize_cache (fun _ => true) 0 t b E) := by
  rw [initialize_cache_ok]
  unfold initialize_cache
  simp only [h0, hfail, if_true]
  exact ⟨trivial, rfl⟩

/-- A failure of the first `malloc` returns a `NULL` table pointer, which no
successful construction does. -/
theorem observe_first_failure (ok : Nat → Bool) (s t b E s' t' b' E' : Nat)
    (h0 : ok 0 = false) :
    observe (initialize_cache ok s t b E) = (0, t, b, E, true) ∧
    observe (initialize_cache ok s t b E) ≠
      observe (initialize_cache (fun _ => true) s' t' b' E') := by
  rw [initialize_cache_ok]
  unfold initialize_cache
  simp only [h0]
  refine ⟨rfl, ?_⟩
  intro h
  simp [observe] at h

/-- C13 (construction failure is distinguishable) fails on the code.  With the
geometry `(0, 0, 2, 1)` and the second allocation (the `malloc` of the set)
failing, and with the geometry `(1, 0, 2, 1)` and the third allocation (the
first `calloc`) failing, `initialize_cache` returns `s = 0` and a released,
non-`NULL` pointer: the caller sees the same fields and the same `NULL` test as
after the successful construction of the geometry `(0, 0, 2, 1)`. -/
theorem failure_looks_like_success :
    (initialize_cache (fun k => k != 1) 0 0 2 1).cache = table_ptr.freed ∧
    observe (initialize_cache (fun k => k != 1) 0 0 2 1) =
      observe (initialize_cache (fun _ => true) 0 0 2 1) ∧
    (initialize_cache (fun k => k != 2) 1 0 2 1).cache = table_ptr.freed ∧
    observe (initialize_cache (fun k => k != 2) 1 0 2 1) =
      observe (initialize_cache (fun _ => true) 0 0 2 1) ∧
    (initialize_cache (fun _ => true) 0 0 2 1).cache =
      table_ptr.table [[⟨0, 0, 0, [0, 0, 0, 0]⟩]] := by
  decide

/-! ### Hits, and the write miss -/

/-- A set with a hitting line has a first hitting line. -/
theorem first_hit_of_hit (row : List cache_line_t) (tag : Nat)
    (h : ∃ l ∈ row, is_hit tag l) : ∃ j l, first_hit row tag j ∧ row[j]? = some l ∧
      is_hit tag l := by
  rcases hit_or_miss row tag with ⟨j, hj⟩ | hmiss
  · obtain ⟨⟨l, hl, hh⟩, _⟩ := id hj
    exact ⟨j, l, hj, hl, hh⟩
  · obtain ⟨l, hl, hh⟩ := h
    exact absurd hh (hmiss l hl)

/-- C14 (read hit).  In a well-formed cache, when some line of the set of the
address is valid with the tag of the address, `read_byte` is defined and returns
the byte at the block offset of the first such line; the geometry is kept, that
line keeps its valid bit, tag and block and gets the frequency
`(frequency + 1) % 256`, and every other line of every set is unchanged. -/
theorem read_hit (c : cache_t) (start : List Nat) (off : Nat) (row : List cache_line_t)
    (hwf : well_formed c) (hrow : set_at c (set_of c.s c.b off) = some row)
    (hsome : ∃ l ∈ row, is_hit (tag_of c.s c.b off) l) :
    ∃ j l v c' l', first_hit row (tag_of c.s c.b off) j ∧ row[j]? = some l ∧
      l.block[block_of c.b off]? = some v ∧
      read_byte c start off = some (c', start, v) ∧
      c'.s = c.s ∧ c'.t = c.t ∧ c'.b = c.b ∧ c'.E = c.E ∧
      line_at c' (set_of c.s c.b off) j = some l' ∧
      l'.valid = l.valid ∧ l'.tag = l.tag ∧ l'.block = l.block ∧
      l'.frequency = (l.frequency + 1) % 256 ∧
      ∀ i k, ¬ (i = set_of c.s c.b off ∧ k = j) → line_at c' i k = line_at c i k := by
  obtain ⟨hlen, hblk⟩ := well_formed_row c hwf off row hrow
  obtain ⟨j, l, hj, hl, _⟩ := first_hit_of_hit row _ hsome
  have hb : block_of c.b off < l.block.length := by
    rw [hblk l (List.getElem?_mem hl)]; exact block_of_lt _ _
  have hv : l.block[block_of c.b off]? = some l.block[block_of c.b off] :=
    List.getElem?_eq_getElem hb
  have hat : line_at c (set_of c.s c.b off) j = some l := by
    rw [line_at_eq c _ j row hrow, hl]
  exact ⟨j, l, _, _, bump l, hj, hl, hv, read_byte_hit c start off row j l _ hrow hlen hj hl hv,
    put_line_s _ _ _ _, put_line_t _ _ _ _, put_line_b _ _ _ _, put_line_E _ _ _ _,
    line_at_put_line_self c _ j _ l hat, rfl, rfl, rfl, rfl,
    fun i k hne => line_at_put_line_ne c _ j _ i k hne⟩

/-- C15 (write hit).  In a well-formed cache, when some line of the set of the
address is valid with the tag of the address and the address lies in the store,
`write_byte` is defined and writes the byte at the block offset of the first
such line; the geometry is kept, that line keeps its valid bit, tag and other
block bytes and gets the frequency `(frequency + 1) % 256`, and every other
line of every set is unchanged. -/
theorem write_hit (c : cache_t) (start : List Nat) (off new_byte : Nat)
    (row : List cache_line_t) (hwf : well_formed c)
    (hrow : set_at c (set_of c.s c.b off) = some row)
    (hsome : ∃ l ∈ row, is_hit (tag_of c.s c.b off) l) (ho : off < start.length) :
    ∃ j l c' l', first_hit row (tag_of c.s c.b off) j ∧ row[j]? = some l ∧
      write_byte c start off new_byte = some (c', start.set off new_byte) ∧
      c'.s = c.s ∧ c'.t = c.t ∧ c'.b = c.b ∧ c'.E = c.E ∧
      line_at c' (set_of c.s c.b off) j = some l' ∧
      l'.valid = l.valid ∧ l'.tag = l.tag ∧
      l'.block.length = l.block.length ∧
      l'.block[block_of c.b off]? = some new_byte ∧
      (∀ k, k ≠ block_of c.b off → l'.block[k]? = l.block[k]?) ∧
      l'.frequency = (l.frequency + 1) % 256 ∧
      ∀ i k, ¬ (i = set_of c.s c.b off ∧ k = j) → line_at c' i k = line_at c i k := by
  obtain ⟨hlen, hblk⟩ := well_formed_row c hwf off row hrow
  obtain ⟨j, l, hj, hl, _⟩ := first_hit_of_hit row _ hsome
  have hb : block_of c.b off < l.block.length := by
    rw [hblk l (List.getElem?_mem hl)]; exact block_of_lt _ _
  have hat : line_at c (set_of c.s c.b off) j = some l := by
    rw [line_at_eq c _ j row hrow, hl]
  exact ⟨j, l, _, bump { l with block := l.block.set (block_of c.b off) new_byte }, hj, hl,
    write_byte_hit c start off new_byte row j l hrow hlen hj hl hb ho,
    put_line_s _ _ _ _, put_line_t _ _ _ _, put_line_b _ _ _ _, put_line_E _ _ _ _,
    line_at_put_line_self c _ j _ l hat, rfl, rfl, List.length_set _ _ _,
    List.getElem?_set_self hb, fun k hk => List.getElem?_set_ne (Ne.symm hk), rfl,
    fun i k hne => line_at_put_line_ne c _ j _ i k hne⟩

/-- Coherence invariant for the geometries the `int` expressions hold
(`s ≤ 30`, `b ≤ 30`) with `E ≥ 1`.  Take any state reached from the freshly
initialised cache by defined `read_byte` and `write_byte` calls.  Every valid
line of set `i` with tag `g` holds at each `k < 2 ^ b` the byte of the store at
`g * 2 ^ (s + b) + i * 2 ^ b + k`; the same is true of the initial state and of
the state after one more defined read or write. -/
theorem coherence_invariant (s t b E : Nat) (hE : 1 ≤ E) (hs30 : s ≤ 30) (_hb : b ≤ 30)
    (start0 : List Nat) (calls : List call) (c : cache_t) (start : List Nat)
    (hrun : run calls (initialize_cache (fun _ => true) s t b E) start0 = some (c, start)) :
    coherent (initialize_cache (fun _ => true) s t b E) start0 ∧
    (∀ i j l, line_at c i j = some l → l.valid ≠ 0 → ∀ k, k < 2 ^ b →
      ∃ x, l.block[k]? = some x ∧ start[l.tag * 2 ^ (s + b) + i * 2 ^ b + k]? = some x) ∧
    (∀ off c' start' v, read_byte c start off = some (c', start', v) → coherent c' start') ∧
    (∀ off new_byte c' start', write_byte c start off new_byte = some (c', start') →
      coherent c' start') := by
  have hinit := state_ok_initialize_cache s t b E hE hs30 start0
  have hs0 : (initialize_cache (fun _ => true) s t b E).s ≤ 30 := by
    rw [initialize_cache_ok]; exact hs30
  obtain ⟨hok, hs, _, hb, _⟩ := run_ok calls _ start0 c start hinit hs0 hrun
  have hs' : c.s = s := by rw [hs, initialize_cache_ok]
  have hb' : c.b = b := by rw [hb, initialize_cache_ok]
  have hcs : c.s ≤ 30 := by rw [hs']; exact hs30
  refine ⟨hinit.2.1, ?_, ?_, ?_⟩
  · intro i j l hl hv k hk
    have hcoh := hok.2.1 i j l hl hv k (by rw [hb']; exact hk)
    rw [hs', hb'] at hcoh
    obtain ⟨_, _, hlen⟩ := well_formed_line c hok.1 i j l hl
    have hk' : k < l.block.length := by rw [hlen, hb']; exact hk
    exact ⟨l.block[k], List.getElem?_eq_getElem hk', by
      rw [← hcoh, List.getElem?_eq_getElem hk']⟩
  · intro off c' start' v h
    exact (read_byte_ok c start off c' start' v hok hcs h).1.2.1
  · intro off new_byte c' start' h
    exact (write_byte_ok c start off new_byte c' start' hok hcs h).1.2.1

/-- C17 (coherence invariant) fails on the code for `s ≥ 31`: `1 << s` is an
`int`.  With `s = 32`, `b = 0`, `E = 1` and the store `[10, .., 17]`, after
`read(5)` the valid line of set 0 has tag 0 and the block `[15]`, while the
invariant asks for the byte of the store at `0 * 2 ^ 32 + 0 * 2 ^ 0 + 0`, which
is 10. -/
theorem coherence_fails_int_shift :
    run [.read 5] (initialize_cache (fun _ => true) 32 0 0 1)
        [10, 11, 12, 13, 14, 15, 16, 17] =
      some ({ s := 32, t := 0, b := 0, E := 1, cache := .table [[⟨1, 1, 0, [15]⟩]] },
            [10, 11, 12, 13, 14, 15, 16, 17]) ∧
    line_at { s := 32, t := 0, b := 0, E := 1, cache := .table [[⟨1, 1, 0, [15]⟩]] } 0 0 =
      some ⟨1, 1, 0, [15]⟩ ∧
    ([15] : List Nat)[0]? = some 15 ∧
    [10, 11, 12, 13, 14, 15, 16, 17][0 * 2 ^ (32 + 0) + 0 * 2 ^ 0 + 0]? = some 10 ∧
    ¬ coherent { s := 32, t := 0, b := 0, E := 1, cache := .table [[⟨1, 1, 0, [15]⟩]] }
        [10, 11, 12, 13, 14, 15, 16, 17] := by
  refine ⟨by decide, by decide, by decide, by decide, ?_⟩
  intro h
  have := h 0 0 ⟨1, 1, 0, [15]⟩ (by decide) (by decide) 0 (by decide)
  revert this
  decide

/-! ### Validity -/

/-- A defined read replaces one line of the set of the address by a valid line. -/
theorem read_byte_put (c : cache_t) (start : List Nat) (off : Nat) (c' : cache_t)
    (start' : List Nat) (v : Nat) (h : read_byte c start off = some (c', start', v)) :
    ∃ row j l L, set_at c (set_of c.s c.b off) = some row ∧ row[j]? = some l ∧
      ((hit_loop row (tag_of c.s c.b off) c.E 0 = some (some j) ∧
          L.valid = l.valid ∧ L.tag = l.tag) ∨
        (hit_loop row (tag_of c.s c.b off) c.E 0 = some none ∧
          line_to_insert row c.E = some j ∧ L.tag = tag_of c.s c.b off)) ∧
      c' = put_line c (set_of c.s c.b off) j L ∧ L.valid ≠ 0 := by
  unfold read_byte at h
  dsimp only at h
  cases hd : c.cache.deref with
  | none => simp [hd] at h
  | some sets =>
    simp only [hd] at h
    cases hr : sets[set_of c.s c.b off]? with
    | none => simp [hr] at h
    | some row =>
      simp only [hr] at h
      cases hs : hit_loop row (tag_of c.s c.b off) c.E 0 with
      | none => simp [hs] at h
      | some o =>
        cases o with
        | some i =>
          simp only [hs] at h
          obtain ⟨_, _, ⟨l0, hl0, hh⟩, _⟩ := hit_loop_inv row _ c.E 0 _ hs
          have hl0' : row[i]? = some l0 := hl0
          simp only [hl0'] at h
          cases hv : l0.block[block_of c.b off]? with
          | none => simp [hv] at h
          | some x =>
            simp only [hv, Option.some.injEq, Prod.mk.injEq] at h
            refine ⟨row, i, l0, { l0 with frequency := (l0.frequency + 1) % 256 },
              by simp only [set_at, hd, hr], hl0', Or.inl ⟨hs, rfl, rfl⟩, ?_, hh.1⟩
            rw [put_line_eq hd hr]
            exact h.1.symm
        | none =>
          simp only [hs] at h
          cases hi : line_to_insert row c.E with
          | none => simp [hi] at h
          | some idx =>
            simp only [hi] at h
            cases hl : row[idx]? with
            | none => simp [hl] at h
            | some line =>
              simp only [hl] at h
              cases hc : copy_loop start (off - block_of c.b off) (1 <<< c.b) 0 line.block with
              | none => simp [hc] at h
              | some blk =>
                simp only [hc] at h
                cases hv : blk[block_of c.b off]? with
                | none => simp [hv] at h
                | some x =>
                  simp only [hv, Option.some.injEq, Prod.mk.injEq] at h
                  refine ⟨row, idx, line, ⟨1, 1, tag_of c.s c.b off, blk⟩,
                    by simp only [set_at, hd, hr], hl, Or.inr ⟨hs, hi, rfl⟩, ?_,
                    Nat.one_ne_zero⟩
                  rw [put_line_eq hd hr]
                  exact h.1.symm

/-- A defined write replaces one line of the set of the address by a valid line. -/
theorem write_byte_put (c : cache_t) (start : List Nat) (off new_byte : Nat) (c' : cache_t)
    (start' : List Nat) (h : write_byte c start off new_byte = some (c', start')) :
    ∃ row j l L, set_at c (set_of c.s c.b off) = some row ∧ row[j]? = some l ∧
      ((hit_loop row (tag_of c.s c.b off) c.E 0 = some (some j) ∧
          L.valid = l.valid ∧ L.tag = l.tag) ∨
        (hit_loop row (tag_of c.s c.b off) c.E 0 = some none ∧
          line_to_insert row c.E = some j ∧ L.tag = tag_of c.s c.b off)) ∧
      c' = put_line c (set_of c.s c.b off) j L ∧ L.valid ≠ 0 := by
  unfold write_byte at h
  dsimp only at h
  cases hd : c.cache.deref with
  | none => simp [hd] at h
  | some sets =>
    simp only [hd] at h
    cases hr : sets[set_of c.s c.b off]? with
    | none => simp [hr] at h
    | some row =>
      simp only [hr] at h
      cases hs : hit_loop row (tag_of c.s c.b off) c.E 0 with
      | none => simp [hs] at h
      | some o =>
        cases o with
        | some i =>
          simp only [hs] at h
          obtain ⟨_, _, ⟨l0, hl0, hh⟩, _⟩ := hit_loop_inv row _ c.E 0 _ hs
          have hl0' : row[i]? = some l0 := hl0
          simp only [hl0'] at h
          by_cases hc : block_of c.b off < l0.block.length ∧ off < start.length
          · simp only [if_pos hc, Option.some.injEq, Prod.mk.injEq] at h
            refine ⟨row, i, l0, { l0 with block := l0.block.set (block_of c.b off) new_byte,
                                          frequency := (l0.frequency + 1) % 256 },
              by simp only [set_at, hd, hr], hl0', Or.inl ⟨hs, rfl, rfl⟩, ?_, hh.1⟩
            rw [put_line_eq hd hr]
            exact h.1.symm
          · simp only [if_neg hc] at h
            cases h
        | none =>
          simp only [hs] at h
          cases hi : line_to_insert row c.E with
          | none => simp [hi] at h
          | some idx =>
            simp only [hi] at h
            cases hl : row[idx]? with
            | none => simp [hl] at h
            | some line =>
              simp only [hl] at h
              by_cases ho : off < start.length
              · simp only [if_pos ho] at h
                cases hc : copy_loop (start.set off new_byte) (off - block_of c.b off)
                    (1 <<< c.b) 0 line.block with
                | none => simp [hc] at h
                | some blk =>
                  simp only [hc, Option.some.injEq, Prod.mk.injEq] at h
                  refine ⟨row, idx, line, ⟨1, 1, tag_of c.s c.b off, blk⟩,
                    by simp only [set_at, hd, hr], hl, Or.inr ⟨hs, hi, rfl⟩, ?_,
                    Nat.one_ne_zero⟩
                  rw [put_line_eq hd hr]
                  exact h.1.symm
              · simp only [if_neg ho] at h
                cases h

/-- Putting a valid line in place, above valid lines only, keeps the valid lines
of every set in front. -/
theorem valid_front_put_line (c : cache_t) (i0 j0 : Nat) (L : cache_line_t)
    (row : List cache_line_t) (hrow : set_at c i0 = some row) (hL : L.valid ≠ 0)
    (hbelow : ∀ k < j0, ∀ l ∈ row[k]?, l.valid ≠ 0) (h : valid_front c) :
    valid_front (put_line c i0 j0 L) := by
  intro i j k hk l hl hv l' hl'
  have hl1 : line_at (put_line c i0 j0 L) i j = some l := hl
  have hl1' : line_at (put_line c i0 j0 L) i k = some l' := hl'
  rw [line_at_put_line] at hl1 hl1'
  by_cases hc' : i = i0 ∧ k = j0
  · rw [if_pos hc'] at hl1'
    cases hat : line_at c i0 j0 with
    | none => rw [hat] at hl1'; cases hl1'
    | some l0 =>
      rw [hat] at hl1'
      cases hl1'
      exact hL
  · rw [if_neg hc'] at hl1'
    by_cases hc : i = i0 ∧ j = j0
    · obtain ⟨rfl, rfl⟩ := hc
      rw [line_at_eq c _ k row hrow] at hl1'
      exact hbelow k hk l' hl1'
    · rw [if_neg hc] at hl1
      exact h i j k hk l hl1 hv l' hl1'

/-- Putting a valid line in place leaves the invalid lines as they were. -/
theorem invalid_untouched_put_line (c : cache_t) (i0 j0 : Nat) (L : cache_line_t)
    (hL : L.valid ≠ 0) (h : invalid_untouched c) : invalid_untouched (put_line c i0 j0 L) := by
  intro i j l hl hv
  have hl1 : line_at (put_line c i0 j0 L) i j = some l := hl
  rw [line_at_put_line] at hl1
  rw [put_line_b]
  by_cases hc : i = i0 ∧ j = j0
  · rw [if_pos hc] at hl1
    cases hat : line_at c i0 j0 with
    | none => rw [hat] at hl1; cases hl1
    | some l0 =>
      rw [hat] at hl1
      cases hl1
      exact absurd hv hL
  · rw [if_neg hc] at hl1
    exact h i j l hl1 hv

/-- Putting a line in place leaves every set with `E` lines. -/
theorem rows_ok_put_line (c : cache_t) (i0 j0 : Nat) (L : cache_line_t) (h : rows_ok c) :
    rows_ok (put_line c i0 j0 L) := by
  intro i row hrow
  have hrow1 : set_at (put_line c i0 j0 L) i = some row := hrow
  rw [set_at_put_line] at hrow1
  rw [put_line_E]
  by_cases hi : i = i0
  · rw [if_pos hi] at hrow1
    cases hr : set_at c i0 with
    | none => rw [hr] at hrow1; cases hrow1
    | some r =>
      rw [hr] at hrow1
      simp only [Option.map_some', Option.some.injEq] at hrow1
      rw [← hrow1, List.length_set]
      exact h i0 r hr
  · rw [if_neg hi] at hrow1
    exact h i row hrow1

/-- In a cache whose sets have `E` lines and whose valid lines are in front, the
line a defined call replaces has only valid lines below it. -/
theorem dest_below_valid (c : cache_t) (off : Nat) (row : List cache_line_t) (j : Nat)
    (hlen : row.length = c.E) (hpre : valid_front c)
    (hrow : set_at c (set_of c.s c.b off) = some row)
    (hj : hit_loop row (tag_of c.s c.b off) c.E 0 = some (some j) ∨
      (hit_loop row (tag_of c.s c.b off) c.E 0 = some none ∧
        line_to_insert row c.E = some j)) :
    ∀ k < j, ∀ l ∈ row[k]?, l.valid ≠ 0 := by
  rcases hj with hj | ⟨_, hj⟩
  · obtain ⟨⟨l, hl, hh⟩, _⟩ := (hit_loop_some_iff row _ c.E j hlen).1 hj
    intro k hk l' hl'
    refine hpre (set_of c.s c.b off) j k hk l ?_ hh.1 l' ?_
    · rw [line_at_eq c _ j row hrow]; exact hl
    · rw [line_at_eq c _ k row hrow]; exact hl'
  · rcases empty_or_full row with ⟨idx, hidx⟩ | hfull
    · rw [line_to_insert_empty row c.E idx hlen hidx] at hj
      cases hj
      exact hidx.2
    · intro k _ l' hl'
      exact hfull l' (List.getElem?_mem hl')

/-- The replacement a defined call makes keeps the structure of the table: sets
of `E` lines, no duplicate tag, valid lines in front, invalid lines untouched. -/
theorem put_structure (c : cache_t) (off : Nat) (row : List cache_line_t) (j : Nat)
    (l L : cache_line_t)
    (hrow : set_at c (set_of c.s c.b off) = some row) (hlj : row[j]? = some l)
    (hj : (hit_loop row (tag_of c.s c.b off) c.E 0 = some (some j) ∧
          L.valid = l.valid ∧ L.tag = l.tag) ∨
        (hit_loop row (tag_of c.s c.b off) c.E 0 = some none ∧
          line_to_insert row c.E = some j ∧ L.tag = tag_of c.s c.b off))
    (hL : L.valid ≠ 0)
    (h : rows_ok c ∧ no_duplicate c ∧ valid_front c ∧ invalid_untouched c) :
    rows_ok (put_line c (set_of c.s c.b off) j L) ∧
    no_duplicate (put_line c (set_of c.s c.b off) j L) ∧
    valid_front (put_line c (set_of c.s c.b off) j L) ∧
    invalid_untouched (put_line c (set_of c.s c.b off) j L) := by
  obtain ⟨hrows, hdup, hpre, hun⟩ := h
  have hlen : row.length = c.E := hrows _ row hrow
  have hat : line_at c (set_of c.s c.b off) j = some l := by
    rw [line_at_eq c _ j row hrow]; exact hlj
  refine ⟨rows_ok_put_line c _ j L hrows, ?_,
    valid_front_put_line c _ j L row hrow hL (dest_below_valid c off row j hlen hpre hrow ?_) hpre,
    invalid_untouched_put_line c _ j L hL hun⟩
  · rcases hj with ⟨_, hv, ht⟩ | ⟨hmiss, _, ht⟩
    · exact no_duplicate_put_same c _ j l L hat hv ht hdup
    · refine no_duplicate_put_fill c _ j L ?_ hdup
      intro k m _ hm hh
      rw [line_at_eq c _ k row hrow] at hm
      rw [ht] at hh
      exact (hit_loop_none_iff row _ c.E hlen).1 hmiss m (List.getElem?_mem hm) hh
  · rcases hj with ⟨hj, _⟩ | ⟨hmiss, hj, _⟩
    · exact Or.inl hj
    · exact Or.inr ⟨hmiss, hj⟩

/-- A property kept by every defined read and write is kept by every defined
sequence of calls. -/
theorem run_invariant (P : cache_t → List Nat → Prop)
    (hread : ∀ c start off c' start' v, P c start →
      read_byte c start off = some (c', start', v) → P c' start')
    (hwrite : ∀ c start off new_byte c' start', P c start →
      write_byte c start off new_byte = some (c', start') → P c' start') :
    ∀ (calls : List call) (c : cache_t) (start : List Nat) (c' : cache_t) (start' : List Nat),
      P c start → run calls c start = some (c', start') → P c' start' := by
  intro calls
  induction calls with
  | nil =>
    intro c start c' start' hP h
    simp only [run, Option.some.injEq, Prod.mk.injEq] at h
    obtain ⟨rfl, rfl⟩ := h
    exact hP
  | cons k ks ih =>
    intro c start c' start' hP h
    rw [run] at h
    cases hs : step c start k with
    | none => simp [hs] at h
    | some r =>
      obtain ⟨c1, start1⟩ := r
      simp only [hs] at h
      refine ih c1 start1 c' start' ?_ h
      cases k with
      | read off =>
        simp only [step] at hs
        cases hr : read_byte c start off with
        | none => simp [hr] at hs
        | some r =>
          obtain ⟨c2, start2, v⟩ := r
          simp only [hr, Option.some.injEq, Prod.mk.injEq] at hs
          obtain ⟨rfl, rfl⟩ := hs
          exact hread c start off _ _ v hP hr
      | write off new_byte =>
        simp only [step] at hs
        exact hwrite c start off new_byte _ _ hP hs

/-- The reachable states, for every geometry: sets of `E` lines, no duplicate
tag, valid lines in front, invalid lines untouched, and the field `b`
unchanged. -/
theorem run_structure (s t b E : Nat) (start0 : List Nat)
    (calls : List call) (c : cache_t) (start : List Nat)
    (hrun : run calls (initialize_cache (fun _ => true) s t b E) start0 = some (c, start)) :
    (rows_ok c ∧ no_duplicate c ∧ valid_front c ∧ invalid_untouched c) ∧ c.b = b := by
  refine run_invariant
    (fun c _ => (rows_ok c ∧ no_duplicate c ∧ valid_front c ∧ invalid_untouched c) ∧ c.b = b)
    ?_ ?_ calls _ start0 c start ?_ hrun
  · intro c start off c' start' v ⟨hst, hb⟩ h
    obtain ⟨row, j, l, L, hrow, hlj, hj, rfl, hL⟩ := read_byte_put c start off c' start' v h
    exact ⟨put_structure c off row j l L hrow hlj hj hL hst, by rw [put_line_b]; exact hb⟩
  · intro c start off new_byte c' start' ⟨hst, hb⟩ h
    obtain ⟨row, j, l, L, hrow, hlj, hj, rfl, hL⟩ :=
      write_byte_put c start off new_byte c' start' h
    exact ⟨put_structure c off row j l L hrow hlj hj hL hst, by rw [put_line_b]; exact hb⟩
  · refine ⟨⟨?_, ?_, ?_, ?_⟩, by rw [initialize_cache_ok]⟩
    · intro i row hrow
      have hrow1 : set_at (initialize_cache (fun _ => true) s t b E) i = some row := hrow
      rw [initialize_cache_ok] at hrow1 ⊢
      simp only [set_at, deref_table] at hrow1
      rw [List.getElem?_replicate] at hrow1
      by_cases hi : i < (shl_int s).toNat
      · rw [if_pos hi] at hrow1
        cases hrow1
        exact List.length_replicate _ _
      · rw [if_neg hi] at hrow1
        cases hrow1
    · intro i j j' l hl _ _ hv
      rw [line_at_initialize_cache s t b E i j l hl] at hv
      exact absurd rfl hv
    · intro i j k _ l hl hv
      rw [line_at_initialize_cache s t b E i j l hl] at hv
      exact absurd rfl hv
    · intro i j l hl _
      rw [line_at_initialize_cache s t b E i j l hl, initialize_cache_ok]
      rfl

/-- C18 (no duplicate residency).  In any state reached from the freshly
initialised cache by defined calls, no set holds two distinct valid lines with
the same tag, so a line that hits on an address is the line the hit scan
finds. -/
theorem no_duplicate_residency (s t b E : Nat) (hE : 1 ≤ E) (start0 : List Nat)
    (calls : List call) (c : cache_t) (start : List Nat)
    (hrun : run calls (initialize_cache (fun _ => true) s t b E) start0 = some (c, start)) :
    (∀ i j k l l', line_at c i j = some l → line_at c i k = some l' →
      l.valid ≠ 0 → l'.valid ≠ 0 → l.tag = l'.tag → j = k) ∧
    ∀ off row j k l, set_at c (set_of c.s c.b off) = some row →
      hit_loop row (tag_of c.s c.b off) c.E 0 = some (some j) →
      row[k]? = some l → is_hit (tag_of c.s c.b off) l → k = j := by
  obtain ⟨⟨hrows, hnd, _, _⟩, _⟩ := run_structure s t b E start0 calls c start hrun
  have hdup : ∀ i j k l l', line_at c i j = some l → line_at c i k = some l' →
      l.valid ≠ 0 → l'.valid ≠ 0 → l.tag = l'.tag → j = k :=
    fun i j k l l' hl hl' => hnd i j k l hl l' hl'
  refine ⟨hdup, ?_⟩
  intro off row j k l hrow hscan hl hh
  have hlen : row.length = c.E := hrows _ row hrow
  obtain ⟨⟨lj, hlj, hhj⟩, _⟩ := (hit_loop_some_iff row _ c.E j hlen).1 hscan
  have h1 : line_at c (set_of c.s c.b off) k = some l := by
    rw [line_at_eq c _ k row hrow, hl]
  have h2 : line_at c (set_of c.s c.b off) j = some lj := by
    rw [line_at_eq c _ j row hrow]; exact hlj
  exact hdup _ k j l lj h1 h2 hh.1 hhj.1 (by rw [hh.2, hhj.2])

/-- In a well-formed cache a write whose block lies in the store is defined. -/
theorem write_byte_defined (c : cache_t) (start : List Nat) (off new_byte : Nat)
    (hwf : well_formed c) (hin : block_in_store c.b start off) :
    ∃ c', write_byte c start off new_byte = some (c', start.set off new_byte) := by
  obtain ⟨row, hrow, hlen, hblk⟩ := well_formed_set c hwf _ (set_of_lt c.s c.b off)
  have hE : 1 ≤ c.E := ((well_formed_iff c).1 hwf).1
  rcases hit_or_miss row (tag_of c.s c.b off) with ⟨j, hj⟩ | hmiss
  · obtain ⟨⟨l, hl, hh⟩, hlow⟩ := id hj
    have hl' : row[j]? = some l := hl
    have hb : block_of c.b off < l.block.length := by
      rw [hblk l (List.getElem?_mem hl')]; exact block_of_lt _ _
    exact ⟨_, write_byte_hit c start off new_byte row j l hrow hlen hj hl' hb
      (block_in_store_lt hin)⟩
  · obtain ⟨idx, hidx, hlt, _⟩ := line_to_insert_spec row c.E hlen hE
    have hi : idx < row.length := by omega
    have hl0 : row[idx]? = some row[idx] := List.getElem?_eq_getElem hi
    exact ⟨_, write_byte_miss c start off new_byte row idx _ hrow hlen hmiss hidx hl0
      (hblk _ (List.getElem?_mem hl0)) hin⟩

/-- C20 (index safety).  In a well-formed cache (`2 ^ s` sets of `E ≥ 1` lines
with blocks of `2 ^ b` bytes) and for every address: the set index is below
`2 ^ s`, the block offset below `2 ^ b`, the set exists with `E` lines and
blocks of `2 ^ b` bytes, the hit scan and the choice of the destination line
are defined and give indices below `E`; so with the block of the address inside
the store `read_byte` and `write_byte` are defined, and a call that is not
defined had its block outside the store. -/
theorem index_safety (c : cache_t) (start : List Nat) (off new_byte : Nat)
    (hwf : well_formed c) :
    set_of c.s c.b off < 2 ^ c.s ∧ block_of c.b off < 2 ^ c.b ∧
    (∃ row, set_at c (set_of c.s c.b off) = some row ∧ row.length = c.E ∧
      (∀ l ∈ row, l.block.length = 2 ^ c.b) ∧
      (∃ r, hit_loop row (tag_of c.s c.b off) c.E 0 = some r ∧ ∀ j, r = some j → j < c.E) ∧
      ∃ idx, line_to_insert row c.E = some idx ∧ idx < c.E) ∧
    (block_in_store c.b start off →
      (∃ c' v, read_byte c start off = some (c', start, v)) ∧
      ∃ c', write_byte c start off new_byte = some (c', start.set off new_byte)) ∧
    (read_byte c start off = none → ¬ block_in_store c.b start off) ∧
    (write_byte c start off new_byte = none → ¬ block_in_store c.b start off) := by
  obtain ⟨row, hrow, hlen, hblk⟩ := well_formed_set c hwf _ (set_of_lt c.s c.b off)
  have hE : 1 ≤ c.E := ((well_formed_iff c).1 hwf).1
  refine ⟨set_of_lt _ _ _, block_of_lt _ _, ⟨row, hrow, hlen, hblk, ?_, ?_⟩, ?_, ?_, ?_⟩
  · obtain ⟨r, hr⟩ := hit_loop_total row (tag_of c.s c.b off) c.E 0 (by omega)
    refine ⟨r, hr, ?_⟩
    intro j hj
    subst hj
    obtain ⟨_, h2, _⟩ := hit_loop_inv row _ c.E 0 _ hr
    omega
  · obtain ⟨idx, hidx, hlt, _⟩ := line_to_insert_spec row c.E hlen hE
    exact ⟨idx, hidx, hlt⟩
  · intro hin
    exact ⟨read_byte_defined c start off hwf hin, write_byte_defined c start off new_byte hwf hin⟩
  · intro hnone hin
    obtain ⟨c', v, h⟩ := read_byte_defined c start off hwf hin
    rw [hnone] at h
    cases h
  · intro hnone hin
    obtain ⟨c', h⟩ := write_byte_defined c start off new_byte hwf hin
    rw [hnone] at h
    cases h

/-! ### The later theorems at concrete inputs -/

/-- The construction theorem for two sets of two lines with 2-byte blocks. -/
theorem construction_witness :
    1 ≤ 30 ∧ 1 ≤ 30 ∧ (∀ k : Nat, (fun _ => true) k = true) ∧
    ∃ sets, initialize_cache (fun _ => true) 1 0 1 2 =
        { s := 1, t := 0, b := 1, E := 2, cache := .table sets } ∧
      sets.length = 2 ^ 1 ∧
      (∀ row ∈ sets, row.length = 2 ∧
        ∀ l ∈ row, l.valid = 0 ∧ l.frequency = 0 ∧ l.tag = 0 ∧ l.block.length = 2 ^ 1 ∧
          ∀ x ∈ l.block, x = 0) ∧
      (1 = 0 → ∃ row, sets = [row] ∧ row.length = 2) :=
  ⟨by decide, by decide, fun _ => rfl,
    construction (fun _ => true) 1 0 1 2 (by decide) (by decide) (fun _ => rfl)⟩

/-- The read-hit theorem on a set whose line 0 holds the block of address 1. -/
theorem read_hit_witness :
    well_formed { s := 0, t := 0, b := 1, E := 2,
                  cache := .table [[⟨1, 4, 0, [1, 2]⟩, ⟨0, 0, 0, [0, 0]⟩]] } ∧
    (∃ l ∈ [(⟨1, 4, 0, [1, 2]⟩ : cache_line_t), ⟨0, 0, 0, [0, 0]⟩], is_hit (tag_of 0 1 1) l) ∧
    ∃ c' v, read_byte { s := 0, t := 0, b := 1, E := 2,
                        cache := .table [[⟨1, 4, 0, [1, 2]⟩, ⟨0, 0, 0, [0, 0]⟩]] }
        [1, 2, 3, 4] 1 = some (c', [1, 2, 3, 4], v) ∧
      line_at c' 0 1 = some ⟨0, 0, 0, [0, 0]⟩ :=
  ⟨by decide, by decide,
    match read_hit
      { s := 0, t := 0, b := 1, E := 2,
        cache := .table [[⟨1, 4, 0, [1, 2]⟩, ⟨0, 0, 0, [0, 0]⟩]] }
      [1, 2, 3, 4] 1 [⟨1, 4, 0, [1, 2]⟩, ⟨0, 0, 0, [0, 0]⟩] (by decide) (by decide)
      (by decide) with
    | ⟨j, _, v, c', _, hj, _, _, hr, _, _, _, _, _, _, _, _, _, hrest⟩ =>
      ⟨c', v, hr, by
        have hj0 : j = 0 := first_hit_unique hj (by decide)
        rw [hrest 0 1 (by omega)]
        decide⟩⟩

/-- The write-hit theorem on the same set, writing 9 at address 1. -/
theorem write_hit_witness :
    well_formed { s := 0, t := 0, b := 1, E := 2,
                  cache := .table [[⟨1, 4, 0, [1, 2]⟩, ⟨0, 0, 0, [0, 0]⟩]] } ∧
    (∃ l ∈ [(⟨1, 4, 0, [1, 2]⟩ : cache_line_t), ⟨0, 0, 0, [0, 0]⟩], is_hit (tag_of 0 1 1) l) ∧
    1 < [1, 2, 3, 4].length ∧
    ∃ c', write_byte { s := 0, t := 0, b := 1, E := 2,
                       cache := .table [[⟨1, 4, 0, [1, 2]⟩, ⟨0, 0, 0, [0, 0]⟩]] }
        [1, 2, 3, 4] 1 9 = some (c', [1, 9, 3, 4]) :=
  ⟨by decide, by decide, by decide,
    match write_hit
      { s := 0, t := 0, b := 1, E := 2,
        cache := .table [[⟨1, 4, 0, [1, 2]⟩, ⟨0, 0, 0, [0, 0]⟩]] }
      [1, 2, 3, 4] 1 9 [⟨1, 4, 0, [1, 2]⟩, ⟨0, 0, 0, [0, 0]⟩] (by decide) (by decide)
      (by decide) (by decide) with
    | ⟨_, _, c', _, _, _, hw, _⟩ => ⟨c', hw⟩⟩

/-- The coherence theorem after a read, a write and a read on the store
`[10, .., 80]`: the line holds the store bytes 4 to 7. -/
theorem coherence_invariant_witness :
    1 ≤ 1 ∧ 0 ≤ 30 ∧ 2 ≤ 30 ∧
    run [.read 0, .write 5 99, .read 4] (initialize_cache (fun _ => true) 0 0 2 1)
        [10, 20, 30, 40, 50, 60, 70, 80] =
      some ({ s := 0, t := 0, b := 2, E := 1,
              cache := .table [[⟨1, 2, 1, [50, 99, 70, 80]⟩]] },
            [10, 20, 30, 40, 50, 99, 70, 80]) ∧
    ∀ k, k < 2 ^ 2 → ∃ x, [50, 99, 70, 80][k]? = some x ∧
      [10, 20, 30, 40, 50, 99, 70, 80][1 * 2 ^ (0 + 2) + 0 * 2 ^ 2 + k]? = some x :=
  ⟨by decide, by decide, by decide, by decide,
    (coherence_invariant 0 0 2 1 (by decide) (by decide) (by decide)
      [10, 20, 30, 40, 50, 60, 70, 80]
      [.read 0, .write 5 99, .read 4]
      { s := 0, t := 0, b := 2, E := 1, cache := .table [[⟨1, 2, 1, [50, 99, 70, 80]⟩]] }
      [10, 20, 30, 40, 50, 99, 70, 80] (by decide)).2.1 0 0 ⟨1, 2, 1, [50, 99, 70, 80]⟩
      (by decide) (by decide)⟩

/-- The no-duplicate theorem after three reads in a set of two lines. -/
theorem no_duplicate_residency_witness :
    1 ≤ 2 ∧
    run [.read 0, .read 2, .read 0] (initialize_cache (fun _ => true) 0 0 1 2)
        [1, 2, 3, 4] =
      some ({ s := 0, t := 0, b := 1, E := 2,
              cache := .table [[⟨1, 2, 0, [1, 2]⟩, ⟨1, 1, 1, [3, 4]⟩]] },
            [1, 2, 3, 4]) ∧
    ∀ j k l l',
      line_at { s := 0, t := 0, b := 1, E := 2,
                cache := .table [[⟨1, 2, 0, [1, 2]⟩, ⟨1, 1, 1, [3, 4]⟩]] } 0 j = some l →
      line_at { s := 0, t := 0, b := 1, E := 2,
                cache := .table [[⟨1, 2, 0, [1, 2]⟩, ⟨1, 1, 1, [3, 4]⟩]] } 0 k = some l' →
      l.valid ≠ 0 → l'.valid ≠ 0 → l.tag = l'.tag → j = k :=
  ⟨by decide, by decide,
    (no_duplicate_residency 0 0 1 2 (by decide) [1, 2, 3, 4] [.read 0, .read 2, .read 0]
      { s := 0, t := 0, b := 1, E := 2,
        cache := .table [[⟨1, 2, 0, [1, 2]⟩, ⟨1, 1, 1, [3, 4]⟩]] }
      [1, 2, 3, 4] (by decide)).1 0⟩

/-- The index-safety theorem on a set of two lines and the address 3. -/
theorem index_safety_witness :
    well_formed { s := 0, t := 0, b := 1, E := 2,
                  cache := .table [[⟨1, 4, 0, [1, 2]⟩, ⟨0, 0, 0, [0, 0]⟩]] } ∧
    block_in_store 1 [1, 2, 3, 4] 3 ∧
    set_of 0 1 3 < 2 ^ 0 ∧ block_of 1 3 < 2 ^ 1 ∧
    (∃ c' v, read_byte { s := 0, t := 0, b := 1, E := 2,
                         cache := .table [[⟨1, 4, 0, [1, 2]⟩, ⟨0, 0, 0, [0, 0]⟩]] }
        [1, 2, 3, 4] 3 = some (c', [1, 2, 3, 4], v)) ∧
    ∃ c', write_byte { s := 0, t := 0, b := 1, E := 2,
                       cache := .table [[⟨1, 4, 0, [1, 2]⟩, ⟨0, 0, 0, [0, 0]⟩]] }
        [1, 2, 3, 4] 3 9 = some (c', [1, 2, 3, 4].set 3 9) :=
  ⟨by decide, by decide,
    match index_safety
      { s := 0, t := 0, b := 1, E := 2,
        cache := .table [[⟨1, 4, 0, [1, 2]⟩, ⟨0, 0, 0, [0, 0]⟩]] }
      [1, 2, 3, 4] 3 9 (by decide) with
    | ⟨h1, h2, _, h4, _⟩ => ⟨h1, h2, h4 (by decide)⟩⟩

end CacheSim
